import Mathlib

/-!
Verification of the KrakenGPT retrieval-augmented chat gateway
(`rag_simple.py`, `main.py`, `db/db.py`).

Texts handled by the Python code are modelled as `List Char` (Python `str`
is a sequence of code points, and `len`, slicing and concatenation agree
with list length, take/drop and append).  Python's `str.strip()` is modelled
over the ASCII whitespace set, `str.isupper` / `isdigit` / `lower` over
ASCII case, which is faithful for the ASCII texts the concrete scenarios
use.  Floating-point numerics (numpy cosine similarity) and JSON
encode/decode are external collaborators of the code under test and are
modelled as explicit function parameters / pre-parsed fields.
-/

/-- ASCII whitespace, the set stripped by Python `str.strip()`. -/
def isSpaceB (c : Char) : Bool :=
  c = ' ' || c = '\t' || c = '\n' || c = '\r' || c = '\x0b' || c = '\x0c'

/-- Python `str.strip()`: drop leading and trailing whitespace. -/
def pyStrip (l : List Char) : List Char :=
  ((l.dropWhile isSpaceB).reverse.dropWhile isSpaceB).reverse

/-- Python `sep.join(xs)` for list-of-chars pieces. -/
def joinSep (sep : List Char) : List (List Char) → List Char
  | [] => []
  | [x] => x
  | x :: y :: xs => x ++ sep ++ joinSep sep (y :: xs)

/-- Prepend a character to the first piece of a split result. -/
def consHead (c : Char) : List (List Char) → List (List Char)
  | [] => [[c]]
  | p :: ps => (c :: p) :: ps

/-- Python `text.split('\n')`. -/
def splitNL : List Char → List (List Char)
  | [] => [[]]
  | c :: rest =>
    if c = '\n' then [] :: splitNL rest
    else consHead c (splitNL rest)

/-- Python `text.split('\n\n')` (leftmost, non-overlapping separators). -/
def splitSeq2 : List Char → List (List Char)
  | [] => [[]]
  | [c] => [[c]]
  | c :: d :: rest =>
    if c = '\n' ∧ d = '\n' then [] :: splitSeq2 rest
    else consHead c (splitSeq2 (d :: rest))

/-- `text.replace('\r\n', '\n').replace('\r', '\n')` as one pass:
every CRLF pair becomes one LF, every remaining CR becomes LF. -/
def normCR : List Char → List Char
  | [] => []
  | [c] => [if c = '\r' then '\n' else c]
  | c :: d :: rest =>
    if c = '\r' ∧ d = '\n' then '\n' :: normCR rest
    else (if c = '\r' then '\n' else c) :: normCR (d :: rest)

/-- Line normalisation done at the top of `SimpleRAG.chunk_text`:
normalise line endings, then strip every line and re-join with `'\n'`. -/
def normalize_text (t : List Char) : List Char :=
  joinSep ['\n'] ((splitNL (normCR t)).map pyStrip)

/-- `[x.strip() for x in xs if x.strip()]`, the strip-and-discard-empties
idiom used both for paragraphs and for fallback windows. -/
def stripFilter (xs : List (List Char)) : List (List Char) :=
  xs.filterMap fun x =>
    let s := pyStrip x
    if s = [] then none else some s

/-- `[p.strip() for p in text.split('\n\n') if p.strip()]`. -/
def pyParagraphs (t : List Char) : List (List Char) :=
  stripFilter (splitSeq2 t)

/-- The paragraph separator `"\n\n"` appended after each accumulated paragraph. -/
def nl2 : List Char := ['\n', '\n']

/-- One iteration of the paragraph-accumulation loop in `chunk_text`:
state is `(chunks, current_chunk)`; if appending the paragraph would
overflow `chunk_size` and the buffer is non-empty, close the buffer. -/
def chunkStep (chunk_size : ℕ) (acc : List (List Char) × List Char)
    (p : List Char) : List (List Char) × List Char :=
  if acc.2.length + p.length > chunk_size ∧ acc.2 ≠ [] then
    (acc.1 ++ [pyStrip acc.2], p ++ nl2)
  else
    (acc.1, acc.2 ++ (p ++ nl2))

/-- Fuel-driven worker for `charSlices`; the fuel is an upper bound on the
number of windows still to cut (`t.length` suffices when `chunk_size > 0`). -/
def charSlicesF (chunk_size : ℕ) : ℕ → List Char → List (List Char)
  | 0, _ => []
  | _ + 1, [] => []
  | fuel + 1, c :: t =>
    (c :: t).take chunk_size :: charSlicesF chunk_size fuel ((c :: t).drop chunk_size)

/-- `for i in range(0, len(text), chunk_size): text[i:i+chunk_size]`,
the fixed-width windows of the fallback path (`chunk_size = 0`, which would
raise `ValueError` in Python, is mapped to the empty list). -/
def charSlices (chunk_size : ℕ) (t : List Char) : List (List Char) :=
  if chunk_size = 0 then [] else charSlicesF chunk_size t.length t

/-- The final flush of the accumulation loop: append the stripped buffer
as a last chunk when it is non-empty. -/
def closeChunks (st : List (List Char) × List Char) : List (List Char) :=
  if pyStrip st.2 ≠ [] then st.1 ++ [pyStrip st.2] else st.1

/-- `SimpleRAG.chunk_text` (`rag_simple.py`, lines 23-56): paragraph-greedy
chunking with a whole-text fixed-width fallback when no chunk was produced
(the fallback also strips each window and discards empty ones). -/
def chunk_text (text : List Char) (chunk_size : ℕ) : List (List Char) :=
  let t := normalize_text text
  let paragraphs := pyParagraphs t
  let chunks := closeChunks (paragraphs.foldl (chunkStep chunk_size) ([], []))
  if chunks = [] then stripFilter (charSlices chunk_size t)
  else chunks

/-! ### Basic lemmas about `pyStrip` and the split functions -/

lemma pyStrip_eq_nil_of_all_space {l : List Char} (h : ∀ c ∈ l, isSpaceB c) :
    pyStrip l = [] := by
  unfold pyStrip
  have h1 : l.dropWhile isSpaceB = [] := List.dropWhile_eq_nil_iff.mpr h
  simp [h1]

lemma all_space_of_pyStrip_eq_nil {l : List Char} (h : pyStrip l = []) :
    ∀ c ∈ l, isSpaceB c := by
  unfold pyStrip at h
  have h2 : (l.dropWhile isSpaceB).reverse.dropWhile isSpaceB = [] := by
    have := congrArg List.reverse h
    simpa using this
  have h4 : ∀ c ∈ l.dropWhile isSpaceB, isSpaceB c := by
    intro c hc
    exact List.dropWhile_eq_nil_iff.mp h2 c (List.mem_reverse.mpr hc)
  intro c hc
  rw [← List.takeWhile_append_dropWhile isSpaceB l] at hc
  rcases List.mem_append.mp hc with h5 | h5
  · exact List.mem_takeWhile_imp h5
  · exact h4 c h5

lemma dropWhile_eq_self_of_head? {p : Char → Bool} {l : List Char}
    (h : l.head?.all fun c => !p c) : l.dropWhile p = l := by
  cases l with
  | nil => rfl
  | cons a l =>
    simp only [List.head?_cons, Option.all_some, Bool.not_eq_true'] at h
    simp [List.dropWhile_cons, h]

/-- The head of a `dropWhile p` result never satisfies `p`. -/
lemma head?_dropWhile_not (p : Char → Bool) (l : List Char) :
    (l.dropWhile p).head?.all fun c => !p c := by
  induction l with
  | nil => simp
  | cons a l ih =>
    rw [List.dropWhile_cons]
    by_cases h : p a
    · simpa [h] using ih
    · simp [h]

/-- Both edges of `pyStrip l` are non-whitespace (vacuously when empty). -/
lemma pyStrip_edges (l : List Char) :
    ((pyStrip l).head?.all fun c => !isSpaceB c) ∧
    ((pyStrip l).getLast?.all fun c => !isSpaceB c) := by
  unfold pyStrip
  constructor
  · rw [List.head?_reverse]
    by_cases hne : (l.dropWhile isSpaceB).reverse.dropWhile isSpaceB = []
    · simp [hne]
    · obtain ⟨pre, hpre⟩ :=
        @List.dropWhile_suffix Char ((l.dropWhile isSpaceB).reverse) isSpaceB
      have e1 : ((l.dropWhile isSpaceB).reverse.dropWhile isSpaceB).getLast?
          = (l.dropWhile isSpaceB).head? := by
        have h2 : (pre ++ (l.dropWhile isSpaceB).reverse.dropWhile isSpaceB).getLast?
            = ((l.dropWhile isSpaceB).reverse.dropWhile isSpaceB).getLast? :=
          List.getLast?_append_of_ne_nil pre hne
        rw [hpre] at h2
        rw [← h2, List.getLast?_eq_head?_reverse, List.reverse_reverse]
      rw [e1]
      exact head?_dropWhile_not _ _
  · rw [List.getLast?_eq_head?_reverse, List.reverse_reverse]
    exact head?_dropWhile_not _ _

lemma pyStrip_eq_self {l : List Char}
    (h1 : l.head?.all fun c => !isSpaceB c)
    (h2 : l.getLast?.all fun c => !isSpaceB c) : pyStrip l = l := by
  unfold pyStrip
  rw [dropWhile_eq_self_of_head? h1]
  rw [dropWhile_eq_self_of_head? (by rwa [List.head?_reverse])]
  exact l.reverse_reverse

lemma pyStrip_idem (l : List Char) : pyStrip (pyStrip l) = pyStrip l :=
  pyStrip_eq_self (pyStrip_edges l).1 (pyStrip_edges l).2

/-- Appending trailing whitespace does not change the stripped value. -/
lemma pyStrip_append_space {l w : List Char} (hw : ∀ c ∈ w, isSpaceB c) :
    pyStrip (l ++ w) = pyStrip l := by
  unfold pyStrip
  rw [List.dropWhile_append]
  rcases Decidable.em ((l.dropWhile isSpaceB).isEmpty = true) with h | h
  · rw [if_pos h]
    have : w.dropWhile isSpaceB = [] := List.dropWhile_eq_nil_iff.mpr hw
    rw [this]
    rw [List.isEmpty_iff] at h
    simp [h]
  · rw [if_neg h]
    rw [List.reverse_append, List.dropWhile_append]
    have hwrev : w.reverse.dropWhile isSpaceB = [] :=
      List.dropWhile_eq_nil_iff.mpr (by intro c hc; exact hw c (List.mem_reverse.mp hc))
    rw [hwrev]
    simp

lemma nl2_all_space : ∀ c ∈ nl2, isSpaceB c := by decide

lemma splitSeq2_ne_nil (t : List Char) : splitSeq2 t ≠ [] := by
  induction t using splitSeq2.induct with
  | case1 => simp [splitSeq2]
  | case2 c => simp [splitSeq2]
  | case3 c d rest hcd ih => simp [splitSeq2, hcd]
  | case4 c d rest hcd ih =>
    rw [splitSeq2, if_neg hcd]
    cases hsp : splitSeq2 (d :: rest) with
    | nil => exact absurd hsp ih
    | cons p ps => simp [consHead]

/-- If the text does not contain a blank-line separator, `split('\n\n')`
returns the whole text as its single piece. -/
lemma splitSeq2_eq_single {t : List Char} (h : ¬ (nl2 <:+: t)) :
    splitSeq2 t = [t] := by
  induction t using splitSeq2.induct with
  | case1 => rfl
  | case2 c => rfl
  | case3 c d rest hcd ih =>
    obtain ⟨hc, hd⟩ := hcd
    subst hc; subst hd
    exact absurd ⟨[], rest, rfl⟩ h
  | case4 c d rest hcd ih =>
    have hrest : ¬ (nl2 <:+: d :: rest) := fun hh => h (List.infix_cons hh)
    rw [splitSeq2, if_neg hcd, ih hrest]
    rfl

/-- Every character of a `split('\n\n')` piece is a character of the text. -/
lemma mem_of_mem_splitSeq2 {t p : List Char} (hp : p ∈ splitSeq2 t) :
    ∀ c ∈ p, c ∈ t := by
  induction t using splitSeq2.induct generalizing p with
  | case1 =>
    simp only [splitSeq2, List.mem_singleton] at hp
    simp [hp]
  | case2 c =>
    simp only [splitSeq2, List.mem_singleton] at hp
    simp [hp]
  | case3 c d rest hcd ih =>
    rw [splitSeq2, if_pos hcd] at hp
    rcases List.mem_cons.mp hp with h | h
    · simp [h]
    · intro x hx
      have := ih h x hx
      simp [this]
  | case4 c d rest hcd ih =>
    rw [splitSeq2, if_neg hcd] at hp
    revert hp
    cases hsp : splitSeq2 (d :: rest) with
    | nil => exact absurd hsp (splitSeq2_ne_nil _)
    | cons q qs =>
      intro hp
      rcases List.mem_cons.mp hp with h | h
      · subst h
        intro x hx
        rcases List.mem_cons.mp hx with h | h
        · simp [h]
        · have hq : x ∈ d :: rest := ih (show q ∈ splitSeq2 (d :: rest) from by simp [hsp]) x h
          simp [hq]
      · intro x hx
        have : x ∈ d :: rest := ih (show p ∈ splitSeq2 (d :: rest) from by simp [hsp, h]) x hx
        simp [this]

/-- Every character of a fallback window is a character of the text. -/
lemma mem_of_mem_charSlicesF {S fuel : ℕ} {t w : List Char}
    (hw : w ∈ charSlicesF S fuel t) : ∀ c ∈ w, c ∈ t := by
  induction fuel generalizing t with
  | zero => simp [charSlicesF] at hw
  | succ n ih =>
    cases t with
    | nil => simp [charSlicesF] at hw
    | cons a t' =>
      rw [charSlicesF] at hw
      rcases List.mem_cons.mp hw with h | h
      · subst h; exact fun c hc => List.mem_of_mem_take hc
      · intro c hc
        exact List.mem_of_mem_drop (ih h c hc)

example : chunk_text "abcdef".toList 3 = ["abcdef".toList] := by decide
example : chunk_text "a\n\nb".toList 500 = ["a\n\nb".toList] := by decide
example : chunk_text "aaa\n\nbbb".toList 4 = ["aaa".toList, "bbb".toList] := by decide
example : chunk_text "   ".toList 500 = [] := by decide
example : chunk_text "a\r\nb".toList 500 = ["a\nb".toList] := by decide

/-! ### C5: behaviour on documents without blank-line paragraph breaks -/

/-- An all-whitespace document produces no chunks: the paragraph pass yields
zero paragraphs, and every fallback window strips to empty and is discarded. -/
lemma chunk_text_all_space {text : List Char} (S : ℕ)
    (h : pyStrip (normalize_text text) = []) : chunk_text text S = [] := by
  have hall := all_space_of_pyStrip_eq_nil h
  have hpara : pyParagraphs (normalize_text text) = [] := by
    rw [pyParagraphs, stripFilter, List.filterMap_eq_nil_iff]
    intro p hp
    have hps : pyStrip p = [] :=
      pyStrip_eq_nil_of_all_space fun c hc => hall c (mem_of_mem_splitSeq2 hp c hc)
    simp [hps]
  have hfall : stripFilter (charSlices S (normalize_text text)) = [] := by
    rw [stripFilter, List.filterMap_eq_nil_iff]
    intro w hw
    rw [charSlices] at hw
    by_cases hS : S = 0
    · simp [hS] at hw
    · rw [if_neg hS] at hw
      have hws : pyStrip w = [] :=
        pyStrip_eq_nil_of_all_space fun c hc => hall c (mem_of_mem_charSlicesF hw c hc)
      simp [hws]
  rw [chunk_text]
  simp only [hpara, List.foldl_nil, hfall, closeChunks]
  simp [pyStrip]

/-- A document with no blank-line break and non-whitespace content becomes
one single chunk: the whole trimmed normalised text. -/
lemma chunk_text_no_blank {text : List Char} {S : ℕ}
    (hnb : ¬ (nl2 <:+: normalize_text text))
    (hne : pyStrip (normalize_text text) ≠ []) :
    chunk_text text S = [pyStrip (normalize_text text)] := by
  have hpara : pyParagraphs (normalize_text text) = [pyStrip (normalize_text text)] := by
    rw [pyParagraphs, splitSeq2_eq_single hnb, stripFilter]
    simp [List.filterMap_cons, hne, pyStrip_idem]
  have hs2 : pyStrip (pyStrip (normalize_text text) ++ nl2)
      = pyStrip (normalize_text text) := by
    rw [pyStrip_append_space nl2_all_space, pyStrip_idem]
  have hclose : closeChunks ([], pyStrip (normalize_text text) ++ nl2)
      = [pyStrip (normalize_text text)] := by
    rw [closeChunks]
    simp only [hs2]
    simp [hne]
  rw [chunk_text]
  simp only [hpara, List.foldl_cons, List.foldl_nil, chunkStep, ne_eq,
    eq_self_iff_true, not_true, and_false, if_false, List.nil_append]
  rw [hclose]
  simp

/-- C5, counterexample: `"abcdef"` has no blank-line break; with `S = 3` the
claim demands the fixed windows `["abc", "def"]`, but the code keeps the
whole text as one chunk (the fallback only runs when no chunk was produced,
i.e. only for all-whitespace text). -/
theorem c5_counterexample :
    ¬ (nl2 <:+: normalize_text "abcdef".toList) ∧
    charSlices 3 (normalize_text "abcdef".toList) = ["abc".toList, "def".toList] ∧
    chunk_text "abcdef".toList 3 = ["abcdef".toList] ∧
    chunk_text "abcdef".toList 3 ≠
      stripFilter (charSlices 3 (normalize_text "abcdef".toList)) := by
  refine ⟨by decide, by decide, by decide, by decide⟩

/-- C5 (amended): for a document with no blank-line paragraph break the code
never slices: if the normalised text is not all whitespace the result is
exactly one chunk, the trimmed normalised text (so the text is covered
exactly once); if it is all whitespace, the fallback windows all strip to
empty and the result is the empty chunk list. -/
theorem c5_no_blank_break_chunking (text : List Char) (S : ℕ) (_hS : 0 < S)
    (hnb : ¬ (nl2 <:+: normalize_text text)) :
    (pyStrip (normalize_text text) ≠ [] →
      chunk_text text S = [pyStrip (normalize_text text)]) ∧
    (pyStrip (normalize_text text) = [] → chunk_text text S = []) :=
  ⟨fun hne => chunk_text_no_blank hnb hne, fun h => chunk_text_all_space S h⟩

/-- Witness for `c5_no_blank_break_chunking` at a concrete input. -/
theorem c5_no_blank_break_chunking_witness :
    0 < 3 ∧ ¬ (nl2 <:+: normalize_text "abcdef".toList) ∧
    chunk_text "abcdef".toList 3 = [pyStrip (normalize_text "abcdef".toList)] :=
  ⟨by decide, by decide,
    (c5_no_blank_break_chunking "abcdef".toList 3 (by decide) (by decide)).1
      (by decide)⟩

/-! ### C6: losslessness of the paragraph-greedy accumulation

A paragraph produced by `pyParagraphs` is non-empty, already stripped, and
contains no `"\n\n"`; the loop only ever concatenates such paragraphs with
`"\n\n"` separators, so splitting the chunks back on `"\n\n"` recovers the
exact paragraph sequence, and re-joining chunks with the separator equals
re-joining the paragraphs. -/

def goodPara (p : List Char) : Prop :=
  p ≠ [] ∧ pyStrip p = p ∧ ¬ (nl2 <:+: p)

/-- The running buffer of the loop: each accumulated paragraph is followed
by the `"\n\n"` separator. -/
def unitsConcat : List (List Char) → List Char
  | [] => []
  | p :: ps => p ++ nl2 ++ unitsConcat ps

lemma unitsConcat_eq : ∀ (p : List Char) (ps : List (List Char)),
    unitsConcat (p :: ps) = joinSep nl2 (p :: ps) ++ nl2
  | p, [] => by simp [unitsConcat, joinSep]
  | p, q :: qs => by
    rw [unitsConcat, unitsConcat_eq q qs]
    simp [joinSep, List.append_assoc]

lemma unitsConcat_append_single (g : List (List Char)) (p : List Char) :
    unitsConcat (g ++ [p]) = unitsConcat g ++ (p ++ nl2) := by
  induction g with
  | nil => simp [unitsConcat]
  | cons q g ih => simp [unitsConcat, ih, List.append_assoc]

lemma unitsConcat_eq_nil_iff (g : List (List Char)) :
    unitsConcat g = [] ↔ g = [] := by
  cases g with
  | nil => simp [unitsConcat]
  | cons p ps => simp [unitsConcat, nl2]

lemma joinSep_cons_cons (sep x y : List Char) (xs : List (List Char)) :
    joinSep sep (x :: y :: xs) = x ++ sep ++ joinSep sep (y :: xs) := rfl

lemma joinSep_consHead (sep : List Char) (c : Char) (S : List (List Char)) :
    joinSep sep (consHead c S) = c :: joinSep sep S := by
  cases S with
  | nil => rfl
  | cons p ps =>
    cases ps with
    | nil => rfl
    | cons q qs => rfl

lemma joinSep_ne_nil {sep : List Char} {g : List (List Char)} (hg : g ≠ [])
    (hne : ∀ p ∈ g, p ≠ []) : joinSep sep g ≠ [] := by
  cases g with
  | nil => exact absurd rfl hg
  | cons p ps =>
    cases ps with
    | nil => exact hne p (List.mem_cons_self _ _)
    | cons q qs =>
      rw [joinSep_cons_cons]
      simp [List.append_eq_nil, hne p (List.mem_cons_self _ _)]

lemma joinSep_head? {sep p : List Char} {ps : List (List Char)} (hp : p ≠ []) :
    (joinSep sep (p :: ps)).head? = p.head? := by
  cases ps with
  | nil => rfl
  | cons q qs =>
    rw [joinSep_cons_cons, List.append_assoc]
    exact List.head?_append_of_ne_nil p hp

lemma getLastD_mem (ps : List (List Char)) (p : List Char) :
    ps.getLastD p ∈ p :: ps := by
  induction ps generalizing p with
  | nil => simp [List.getLastD]
  | cons q qs ih =>
    rw [List.getLastD_cons]
    exact List.mem_cons_of_mem _ (ih q)

lemma joinSep_getLast? {sep : List Char} : ∀ (ps : List (List Char)) (p : List Char),
    (∀ q ∈ p :: ps, q ≠ []) →
    (joinSep sep (p :: ps)).getLast? = (ps.getLastD p).getLast?
  | [], p, _ => rfl
  | q :: qs, p, h => by
    rw [joinSep_cons_cons]
    have hjoin_ne : joinSep sep (q :: qs) ≠ [] :=
      joinSep_ne_nil (by simp) fun r hr => h r (List.mem_cons_of_mem _ hr)
    rw [List.getLast?_append_of_ne_nil _ hjoin_ne]
    rw [joinSep_getLast? qs q fun r hr => h r (List.mem_cons_of_mem _ hr)]
    rw [List.getLastD_cons]

/-- Stripping the running buffer of the loop yields exactly the accumulated
paragraphs joined by the separator. -/
lemma pyStrip_unitsConcat {g : List (List Char)} (hg : ∀ p ∈ g, goodPara p) :
    pyStrip (unitsConcat g) = joinSep nl2 g := by
  cases g with
  | nil => rfl
  | cons p ps =>
    rw [unitsConcat_eq, pyStrip_append_space nl2_all_space]
    apply pyStrip_eq_self
    · rw [joinSep_head? (hg p (List.mem_cons_self _ _)).1]
      have := (pyStrip_edges p).1
      rwa [(hg p (List.mem_cons_self _ _)).2.1] at this
    · rw [joinSep_getLast? ps p fun q hq => (hg q hq).1]
      have hmem := getLastD_mem ps p
      have := (pyStrip_edges (ps.getLastD p)).2
      rwa [(hg _ hmem).2.1] at this

/-- Splitting `p ++ "\n\n" ++ rest` on `"\n\n"` cuts exactly at the appended
separator, provided `p` is separator-free, non-empty and does not end in a
newline. -/
lemma splitSeq2_append_sep (rest : List Char) :
    ∀ (p : List Char), p ≠ [] → ¬ (nl2 <:+: p) → p.getLast? ≠ some '\n' →
      splitSeq2 (p ++ nl2 ++ rest) = p :: splitSeq2 rest
  | [], h, _, _ => absurd rfl h
  | [c], _, _, hlast => by
    have hc : c ≠ '\n' := by
      intro h
      exact hlast (by simp [h])
    show splitSeq2 (c :: '\n' :: ('\n' :: rest)) = [c] :: splitSeq2 rest
    rw [splitSeq2, if_neg (by simp [hc])]
    rw [splitSeq2]
    cases rest with
    | nil => simp [consHead, splitSeq2]
    | cons e rest' => simp [consHead]
  | c1 :: c2 :: p', _, hinf, hlast => by
    have hsuffix : (c2 :: p') <:+ (c1 :: c2 :: p') := ⟨[c1], rfl⟩
    have hinf2 : ¬ (nl2 <:+: c2 :: p') := fun h =>
      hinf (h.trans hsuffix.isInfix)
    have hlast2 : (c2 :: p').getLast? ≠ some '\n' := by
      rwa [List.getLast?_cons_cons] at hlast
    have hcond : ¬ (c1 = '\n' ∧ c2 = '\n') := by
      rintro ⟨h1, h2⟩
      exact hinf ⟨[], p', by rw [h1, h2]; rfl⟩
    show splitSeq2 (c1 :: c2 :: (p' ++ nl2 ++ rest)) = (c1 :: c2 :: p') :: splitSeq2 rest
    rw [splitSeq2, if_neg hcond]
    have : (c2 :: (p' ++ nl2 ++ rest)) = (c2 :: p') ++ nl2 ++ rest := by simp
    rw [this, splitSeq2_append_sep rest (c2 :: p') (by simp) hinf2 hlast2]
    rfl

lemma goodPara_getLast_ne_nl {p : List Char} (hp : goodPara p) :
    p.getLast? ≠ some '\n' := by
  intro h
  have := (pyStrip_edges p).2
  rw [hp.2.1, h] at this
  simp [isSpaceB] at this

/-- Splitting a separator-join of good paragraphs recovers the paragraphs. -/
lemma splitSeq2_joinSep : ∀ {g : List (List Char)}, g ≠ [] →
    (∀ p ∈ g, goodPara p) → splitSeq2 (joinSep nl2 g) = g
  | [], hg, _ => absurd rfl hg
  | [p], _, hp => by
    have := hp p (List.mem_cons_self _ _)
    exact splitSeq2_eq_single this.2.2
  | p :: q :: gs, _, hp => by
    rw [joinSep_cons_cons]
    have hgood := hp p (List.mem_cons_self _ _)
    rw [splitSeq2_append_sep _ p hgood.1 hgood.2.2 (goodPara_getLast_ne_nl hgood)]
    rw [splitSeq2_joinSep (by simp) fun r hr => hp r (List.mem_cons_of_mem _ hr)]

/-- Joining the pieces of `split('\n\n')` with `"\n\n"` recovers the text. -/
lemma joinSep_splitSeq2_inv : ∀ t : List Char, joinSep nl2 (splitSeq2 t) = t := by
  intro t
  induction t using splitSeq2.induct with
  | case1 => rfl
  | case2 c => rfl
  | case3 c d rest hcd ih =>
    obtain ⟨hc, hd⟩ := hcd
    subst hc; subst hd
    rw [splitSeq2, if_pos ⟨rfl, rfl⟩]
    cases hsp : splitSeq2 rest with
    | nil => exact absurd hsp (splitSeq2_ne_nil _)
    | cons s ss =>
      rw [hsp] at ih
      rw [joinSep_cons_cons, ih]
      rfl
  | case4 c d rest hcd ih =>
    rw [splitSeq2, if_neg hcd, joinSep_consHead, ih]

lemma joinSep_append {sep : List Char} : ∀ (A B : List (List Char)),
    A ≠ [] → B ≠ [] →
    joinSep sep (A ++ B) = joinSep sep A ++ sep ++ joinSep sep B
  | [], _, hA, _ => absurd rfl hA
  | [a], B, _, hB => by
    cases B with
    | nil => exact absurd rfl hB
    | cons b bs => rfl
  | a1 :: a2 :: A', B, _, hB => by
    have : (a1 :: a2 :: A') ++ B = a1 :: (a2 :: (A' ++ B)) := rfl
    rw [this, joinSep_cons_cons]
    have h2 : a2 :: (A' ++ B) = (a2 :: A') ++ B := rfl
    rw [h2, joinSep_append (a2 :: A') B (by simp) hB, joinSep_cons_cons]
    simp [List.append_assoc]

/-- Splitting each chunk and re-joining everything is the same as re-joining
the chunks themselves. -/
lemma joinSep_flatMap_splitSeq2 : ∀ cs : List (List Char),
    joinSep nl2 (cs.flatMap splitSeq2) = joinSep nl2 cs
  | [] => rfl
  | c :: cs => by
    rw [List.flatMap_cons]
    cases cs with
    | nil =>
      simp only [List.flatMap_nil, List.append_nil]
      exact joinSep_splitSeq2_inv c
    | cons c2 cs' =>
      have hA : splitSeq2 c ≠ [] := splitSeq2_ne_nil c
      have hB : (c2 :: cs').flatMap splitSeq2 ≠ [] := by
        rw [List.flatMap_cons]
        simp [List.append_eq_nil, splitSeq2_ne_nil c2]
      rw [joinSep_append _ _ hA hB, joinSep_splitSeq2_inv c,
        joinSep_flatMap_splitSeq2 (c2 :: cs'), joinSep_cons_cons]

/-- The first piece of `split('\n\n')` is a prefix of the text. -/
lemma splitSeq2_head_prefix : ∀ {t s : List Char} {ss : List (List Char)},
    splitSeq2 t = s :: ss → s <+: t := by
  intro t
  induction t using splitSeq2.induct with
  | case1 =>
    intro s ss h
    simp only [splitSeq2, List.cons.injEq] at h
    simp [← h.1]
  | case2 c =>
    intro s ss h
    simp only [splitSeq2, List.cons.injEq] at h
    simp [← h.1]
  | case3 c d rest hcd ih =>
    intro s ss h
    rw [splitSeq2, if_pos hcd] at h
    injection h with h1 h2
    subst h1
    exact List.nil_prefix
  | case4 c d rest hcd ih =>
    intro s ss h
    rw [splitSeq2, if_neg hcd] at h
    revert h
    cases hsp : splitSeq2 (d :: rest) with
    | nil => exact absurd hsp (splitSeq2_ne_nil _)
    | cons q qs =>
      intro h
      rw [consHead] at h
      injection h with h1 h2
      subst h1
      exact List.cons_prefix_cons.mpr ⟨rfl, ih hsp⟩

/-- No piece of `split('\n\n')` contains the separator. -/
lemma not_nl2_infix_of_mem_splitSeq2 : ∀ {t p : List Char},
    p ∈ splitSeq2 t → ¬ (nl2 <:+: p) := by
  intro t
  induction t using splitSeq2.induct with
  | case1 =>
    intro p hp hinf
    simp only [splitSeq2, List.mem_singleton] at hp
    subst hp
    have := hinf.sublist.length_le
    simp [nl2] at this
  | case2 c =>
    intro p hp hinf
    simp only [splitSeq2, List.mem_singleton] at hp
    subst hp
    have := hinf.sublist.length_le
    simp [nl2] at this
  | case3 c d rest hcd ih =>
    intro p hp hinf
    rw [splitSeq2, if_pos hcd] at hp
    rcases List.mem_cons.mp hp with h | h
    · subst h
      have := hinf.sublist.length_le
      simp [nl2] at this
    · exact ih h hinf
  | case4 c d rest hcd ih =>
    intro p hp hinf
    rw [splitSeq2, if_neg hcd] at hp
    revert hp
    cases hsp : splitSeq2 (d :: rest) with
    | nil => exact absurd hsp (splitSeq2_ne_nil _)
    | cons q qs =>
      intro hp
      rw [consHead] at hp
      rcases List.mem_cons.mp hp with h | h
      · subst h
        rcases List.infix_cons_iff.mp hinf with h2 | h2
        · -- nl2 <+: c :: q, so c = '\n' and q starts with '\n'
          have hq := splitSeq2_head_prefix hsp
          rcases List.cons_prefix_cons.mp h2 with ⟨hc, h3⟩
          cases q with
          | nil => simp at h3
          | cons e q' =>
            rcases List.cons_prefix_cons.mp h3 with ⟨he, _⟩
            rcases List.cons_prefix_cons.mp hq with ⟨hed, _⟩
            exact hcd ⟨hc.symm, by rw [← hed, ← he]⟩
        · exact ih (by simp [hsp]) h2
      · exact ih (by simp [hsp, h]) hinf

/-- The stripped text is a contiguous slice of the original. -/
lemma pyStrip_infix_orig (l : List Char) : pyStrip l <:+: l := by
  unfold pyStrip
  obtain ⟨pre, hpre⟩ :=
    @List.dropWhile_suffix Char ((l.dropWhile isSpaceB).reverse) isSpaceB
  have hpref : ((l.dropWhile isSpaceB).reverse.dropWhile isSpaceB).reverse <+:
      l.dropWhile isSpaceB := by
    refine ⟨pre.reverse, ?_⟩
    have := congrArg List.reverse hpre
    simpa using this
  exact hpref.isInfix.trans (List.dropWhile_suffix isSpaceB).isInfix

/-- Every `pyParagraphs` output is a good paragraph. -/
lemma goodPara_of_mem_pyParagraphs {t p : List Char}
    (hp : p ∈ pyParagraphs t) : goodPara p := by
  rw [pyParagraphs, stripFilter, List.mem_filterMap] at hp
  obtain ⟨x, hx, hfx⟩ := hp
  simp only at hfx
  by_cases hs : pyStrip x = []
  · rw [if_pos hs] at hfx
    exact absurd hfx (by simp)
  · rw [if_neg hs] at hfx
    have hxp : pyStrip x = p := Option.some.inj hfx
    refine ⟨hxp ▸ hs, hxp ▸ pyStrip_idem x, ?_⟩
    intro hinf
    have hsub : p <:+: x := hxp ▸ pyStrip_infix_orig x
    exact not_nl2_infix_of_mem_splitSeq2 hx (hinf.trans hsub)

lemma mem_joinSep {sep : List Char} {c : Char} : ∀ {ls : List (List Char)},
    c ∈ joinSep sep ls → (∃ l ∈ ls, c ∈ l) ∨ c ∈ sep := by
  intro ls
  induction ls with
  | nil => intro h; simp [joinSep] at h
  | cons x xs ih =>
    cases xs with
    | nil =>
      intro h
      exact Or.inl ⟨x, List.mem_cons_self _ _, h⟩
    | cons y ys =>
      intro h
      rw [joinSep_cons_cons] at h
      rcases List.mem_append.mp h with h1 | h1
      · rcases List.mem_append.mp h1 with h2 | h2
        · exact Or.inl ⟨x, List.mem_cons_self _ _, h2⟩
        · exact Or.inr h2
      · rcases ih h1 with ⟨l, hl, hcl⟩ | h2
        · exact Or.inl ⟨l, List.mem_cons_of_mem _ hl, hcl⟩
        · exact Or.inr h2

/-- If the paragraph pass extracts nothing, the text is all whitespace. -/
lemma pyStrip_eq_nil_of_paragraphs_nil {t : List Char}
    (h : pyParagraphs t = []) : pyStrip t = [] := by
  apply pyStrip_eq_nil_of_all_space
  intro c hc
  rw [pyParagraphs, stripFilter, List.filterMap_eq_nil_iff] at h
  rw [← joinSep_splitSeq2_inv t] at hc
  rcases mem_joinSep hc with ⟨l, hl, hcl⟩ | hsep
  · have hstrip : pyStrip l = [] := by
      have := h l hl
      by_contra hne
      simp [hne] at this
    exact all_space_of_pyStrip_eq_nil hstrip c hcl
  · have : c = '\n' := by simpa [nl2] using hsep
    simp [this, isSpaceB]

/-- Invariant of the accumulation loop: reading the final chunks back as
`"\n\n"`-joined paragraph groups yields exactly the already-emitted
paragraphs followed by the buffered and the pending ones. -/
lemma chunkFold_decomp (S : ℕ) :
    ∀ (ps cs g : List (List Char)),
      (∀ p ∈ ps, goodPara p) → (∀ p ∈ g, goodPara p) →
      (closeChunks (ps.foldl (chunkStep S) (cs, unitsConcat g))).flatMap splitSeq2
        = cs.flatMap splitSeq2 ++ g ++ ps
  | [], cs, g, _, hg => by
    rw [List.foldl_nil, closeChunks]
    rw [pyStrip_unitsConcat hg]
    by_cases hgnil : g = []
    · subst hgnil
      simp [joinSep]
    · have hjoin_ne : joinSep nl2 g ≠ [] :=
        joinSep_ne_nil hgnil fun p hp => (hg p hp).1
      rw [if_pos hjoin_ne, List.flatMap_append, List.flatMap_singleton,
        splitSeq2_joinSep hgnil hg]
      simp
  | p :: ps', cs, g, hps, hg => by
    rw [List.foldl_cons, chunkStep]
    by_cases hcond : (unitsConcat g).length + p.length > S ∧ unitsConcat g ≠ []
    · rw [if_pos hcond]
      have hgne : g ≠ [] := fun h => hcond.2 (by simp [h, unitsConcat])
      have h1 : pyStrip (unitsConcat g) = joinSep nl2 g := pyStrip_unitsConcat hg
      have h2 : p ++ nl2 = unitsConcat [p] := by simp [unitsConcat]
      rw [h1, h2]
      rw [chunkFold_decomp S ps' (cs ++ [joinSep nl2 g]) [p]
        (fun q hq => hps q (List.mem_cons_of_mem _ hq))
        (by
          intro q hq
          simp only [List.mem_singleton] at hq
          rw [hq]
          exact hps p (List.mem_cons_self _ _))]
      rw [List.flatMap_append, List.flatMap_singleton, splitSeq2_joinSep hgne hg]
      simp [List.append_assoc]
    · rw [if_neg hcond]
      have h2 : unitsConcat g ++ (p ++ nl2) = unitsConcat (g ++ [p]) :=
        (unitsConcat_append_single g p).symm
      rw [h2]
      rw [chunkFold_decomp S ps' cs (g ++ [p])
        (fun q hq => hps q (List.mem_cons_of_mem _ hq))
        (by
          intro q hq
          rcases List.mem_append.mp hq with h | h
          · exact hg q h
          · simp only [List.mem_singleton] at h
            rw [h]
            exact hps p (List.mem_cons_self _ _))]
      simp [List.append_assoc]

/-- Splitting the chunks of `chunk_text` on the separator recovers exactly
the paragraph list of the normalised text. -/
lemma chunk_text_decomp (text : List Char) (S : ℕ) :
    (chunk_text text S).flatMap splitSeq2 = pyParagraphs (normalize_text text) := by
  have hps : ∀ p ∈ pyParagraphs (normalize_text text), goodPara p :=
    fun p hp => goodPara_of_mem_pyParagraphs hp
  have hmain := chunkFold_decomp S (pyParagraphs (normalize_text text)) [] []
    hps (by simp)
  simp only [List.flatMap_nil, List.nil_append, unitsConcat] at hmain
  by_cases hpnil : pyParagraphs (normalize_text text) = []
  · rw [chunk_text_all_space S (pyStrip_eq_nil_of_paragraphs_nil hpnil), hpnil]
    rfl
  · have hCne : closeChunks
        ((pyParagraphs (normalize_text text)).foldl (chunkStep S) ([], [])) ≠ [] := by
      intro h
      rw [h, List.flatMap_nil] at hmain
      exact hpnil hmain.symm
    rw [chunk_text]
    rw [if_neg hCne]
    exact hmain

/-- C6: for a document whose paragraphs all fit into `S`, chunking is
deterministic, splitting the chunks on the paragraph separator recovers
exactly the paragraph sequence of the normalised text, and re-joining the
chunks with the separator reproduces the paragraph-normalised original
text (the chunk concatenation minus the separators is the paragraph
concatenation). -/
theorem c6_chunk_reassembly (text : List Char) (S : ℕ)
    (_hfit : ∀ p ∈ pyParagraphs (normalize_text text), p.length ≤ S) :
    (∀ (text2 : List Char) (S2 : ℕ), text2 = text → S2 = S →
      chunk_text text2 S2 = chunk_text text S) ∧
    (chunk_text text S).flatMap splitSeq2 = pyParagraphs (normalize_text text) ∧
    joinSep nl2 (chunk_text text S) =
      joinSep nl2 (pyParagraphs (normalize_text text)) := by
  refine ⟨fun t2 s2 h1 h2 => by rw [h1, h2], chunk_text_decomp text S, ?_⟩
  rw [← chunk_text_decomp text S, joinSep_flatMap_splitSeq2]

/-- Witness for `c6_chunk_reassembly` at a concrete input. -/
theorem c6_chunk_reassembly_witness :
    (∀ p ∈ pyParagraphs (normalize_text "aaa\n\nbbb".toList), p.length ≤ 4) ∧
    joinSep nl2 (chunk_text "aaa\n\nbbb".toList 4) =
      joinSep nl2 (pyParagraphs (normalize_text "aaa\n\nbbb".toList)) :=
  ⟨by decide, (c6_chunk_reassembly "aaa\n\nbbb".toList 4 (by decide)).2.2⟩

/-! ### `SimpleRAG.search` (`rag_simple.py`, lines 107-188)

The persisted tables `rag_documents` and `rag_chunks` are modelled as
records; a chunk's `embedding` column holds the `json.loads` result of the
stored JSON text (`none` models a row whose stored embedding fails to
parse).  The numpy cosine-similarity computation runs in floating point on
externally produced model vectors, so it is modelled as an explicit
function parameter `cos` (`none` models a raised numpy error, e.g. a
dimension mismatch); the query embedding `qe` likewise stands for
`model.encode([query])[0]`.  Every selection-level property proved below
holds for every such `cos`. -/

structure RagDocument where
  id : ℕ
  project_id : ℤ
  filename : String
  content : List Char
deriving DecidableEq

structure RagChunk where
  id : ℕ
  document_id : ℕ
  content : List Char
  embedding : Option (List ℚ)
deriving DecidableEq

structure RagDb where
  documents : List RagDocument
  chunks : List RagChunk
deriving DecidableEq

/-- The rows returned by the SQL query in `search`: content, embedding and
source filename of every chunk whose document belongs to the project. -/
def ragQueryRows (documents : List RagDocument) (chunks : List RagChunk)
    (pid : ℤ) : List (List Char × Option (List ℚ) × String) :=
  chunks.filterMap fun ch =>
    (documents.find? fun d => d.id == ch.document_id).bind fun d =>
      if d.project_id = pid then some (ch.content, ch.embedding, d.filename)
      else none

/-- The similarity loop: parse each stored embedding and compute the cosine
similarity with the query embedding, skipping (`except: continue`) any row
whose embedding does not parse or whose similarity computation raises. -/
def computeSimilarities (cos : List ℚ → List ℚ → Option ℚ) (qe : List ℚ)
    (rows : List (List Char × Option (List ℚ) × String)) :
    List (ℚ × List Char × String) :=
  rows.filterMap fun r => (r.2.1.bind (cos qe)).map fun s => (s, r.1, r.2.2)

/-- Stable insertion used to model `list.sort(reverse=True, key=score)`:
an earlier element stays before later elements of equal score. -/
def insertDesc (x : ℚ × List Char × String) :
    List (ℚ × List Char × String) → List (ℚ × List Char × String)
  | [] => [x]
  | y :: ys => if y.1 ≤ x.1 then x :: y :: ys else y :: insertDesc x ys

/-- `similarities.sort(reverse=True, key=lambda x: x[0])` (stable,
descending by score). -/
def sortDesc (l : List (ℚ × List Char × String)) :
    List (ℚ × List Char × String) :=
  l.foldr insertDesc []

/-- The score expressed in tenths of a percent, rounded to the nearest
integer with ties to even — the rounding mode of Python's fixed-point
formatting (Python applies it to the binary double; the model applies it to
the exact rational).  Computed on the raw numerator/denominator. -/
def scoreTenths (s : ℚ) : ℤ :=
  let n : ℤ := s.num * 1000
  let d : ℤ := (s.den : ℤ)
  let f : ℤ := n.fdiv d
  let r2 : ℤ := 2 * (n - f * d)
  if r2 < d then f
  else if d < r2 then f + 1
  else if f % 2 = 0 then f else f + 1

/-- `f"{score * 100:.1f}"` for the non-negative scores `search` prints. -/
def fmtPercent1 (s : ℚ) : String :=
  let n := (scoreTenths s).toNat
  toString (n / 10) ++ "." ++ toString (n % 10)

/-- One context block:
`f"[Fonte: {filename} - Rilevanza: {score_percent:.1f}%]\n{content}"`. -/
def contextBlock (c : ℚ × List Char × String) : String :=
  "[Fonte: " ++ c.2.2 ++ " - Rilevanza: " ++ fmtPercent1 c.1 ++ "%]\n"
    ++ String.mk c.2.1

/-- The surviving chunks: sort descending, take the top `top_k`, keep those
with similarity at least `0.05`. -/
def relevant_chunks (cos : List ℚ → List ℚ → Option ℚ) (qe : List ℚ)
    (db : RagDb) (pid : ℤ) (top_k : ℕ) : List (ℚ × List Char × String) :=
  ((sortDesc (computeSimilarities cos qe
    (ragQueryRows db.documents db.chunks pid))).take top_k).filter
    fun c => mkRat 1 20 ≤ c.1

/-- `SimpleRAG.search`: the default `top_k` is 5; returns the formatted
context string, or `""` when nothing relevant is found (the code also
returns `""` on any caught exception; the model is total by construction
and takes the database purely as an input, reflecting that `search` is a
read-only path). -/
def search (cos : List ℚ → List ℚ → Option ℚ) (qe : List ℚ) (db : RagDb)
    (pid : ℤ) (top_k : ℕ) : String :=
  let results := ragQueryRows db.documents db.chunks pid
  if results = [] then ""
  else
    let similarities := computeSimilarities cos qe results
    if similarities = [] then ""
    else
      let top_chunks := (sortDesc similarities).take top_k
      let relevant := top_chunks.filter fun c => mkRat 1 20 ≤ c.1
      if relevant = [] then ""
      else String.intercalate "\n\n---\n\n" (relevant.map contextBlock)

/-! ### Sorting lemmas -/

lemma mem_insertDesc {x z : ℚ × List Char × String} :
    ∀ {l : List (ℚ × List Char × String)},
      z ∈ insertDesc x l → z = x ∨ z ∈ l := by
  intro l
  induction l with
  | nil =>
    intro h
    simp [insertDesc] at h
    exact Or.inl h
  | cons y ys ih =>
    intro h
    rw [insertDesc] at h
    by_cases hc : y.1 ≤ x.1
    · rw [if_pos hc] at h
      rcases List.mem_cons.mp h with h1 | h1
      · exact Or.inl h1
      · exact Or.inr h1
    · rw [if_neg hc] at h
      rcases List.mem_cons.mp h with h1 | h1
      · exact Or.inr (by simp [h1])
      · rcases ih h1 with h2 | h2
        · exact Or.inl h2
        · exact Or.inr (List.mem_cons_of_mem _ h2)

lemma sorted_insertDesc {x : ℚ × List Char × String}
    {l : List (ℚ × List Char × String)}
    (hl : l.Pairwise fun a b => b.1 ≤ a.1) :
    (insertDesc x l).Pairwise fun a b => b.1 ≤ a.1 := by
  induction l with
  | nil => simp [insertDesc]
  | cons y ys ih =>
    rw [insertDesc]
    rcases List.pairwise_cons.mp hl with ⟨hy, hys⟩
    by_cases hc : y.1 ≤ x.1
    · rw [if_pos hc]
      refine List.pairwise_cons.mpr ⟨?_, hl⟩
      intro z hz
      rcases List.mem_cons.mp hz with h1 | h1
      · rw [h1]; exact hc
      · exact le_trans (hy z h1) hc
    · rw [if_neg hc]
      refine List.pairwise_cons.mpr ⟨?_, ih hys⟩
      intro z hz
      rcases mem_insertDesc hz with h1 | h1
      · rw [h1]; exact le_of_not_le hc
      · exact hy z h1

lemma sorted_sortDesc (l : List (ℚ × List Char × String)) :
    (sortDesc l).Pairwise fun a b => b.1 ≤ a.1 := by
  induction l with
  | nil => simp [sortDesc]
  | cons x xs ih => exact sorted_insertDesc ih

lemma mem_sortDesc {z : ℚ × List Char × String}
    {l : List (ℚ × List Char × String)} (h : z ∈ sortDesc l) : z ∈ l := by
  induction l with
  | nil => simp [sortDesc] at h
  | cons x xs ih =>
    rcases mem_insertDesc h with h1 | h1
    · simp [h1]
    · exact List.mem_cons_of_mem _ (ih h1)

/-- `search` in terms of `relevant_chunks`: the staged early returns of the
code all coincide with the empty-relevant case. -/
lemma search_eq_relevant (cos : List ℚ → List ℚ → Option ℚ) (qe : List ℚ)
    (db : RagDb) (pid : ℤ) (top_k : ℕ) :
    search cos qe db pid top_k =
      if relevant_chunks cos qe db pid top_k = [] then ""
      else String.intercalate "\n\n---\n\n"
        ((relevant_chunks cos qe db pid top_k).map contextBlock) := by
  rw [search, relevant_chunks]
  by_cases h1 : ragQueryRows db.documents db.chunks pid = []
  · rw [if_pos h1, h1]
    simp [computeSimilarities, sortDesc]
  · rw [if_neg h1]
    by_cases h2 : computeSimilarities cos qe
        (ragQueryRows db.documents db.chunks pid) = []
    · rw [if_pos h2, h2]
      simp [sortDesc]
    · rw [if_neg h2]

/-! ### Provenance of search results -/

lemma mem_ragQueryRows {documents : List RagDocument} {chunks : List RagChunk}
    {pid : ℤ} {r : List Char × Option (List ℚ) × String}
    (hr : r ∈ ragQueryRows documents chunks pid) :
    ∃ ch ∈ chunks, ∃ d ∈ documents, d.id = ch.document_id ∧
      d.project_id = pid ∧ r = (ch.content, ch.embedding, d.filename) := by
  rw [ragQueryRows, List.mem_filterMap] at hr
  obtain ⟨ch, hch, hf⟩ := hr
  cases hfind : documents.find? (fun d => d.id == ch.document_id) with
  | none => rw [hfind] at hf; simp at hf
  | some d =>
    rw [hfind] at hf
    simp only [Option.some_bind] at hf
    by_cases hp : d.project_id = pid
    · rw [if_pos hp] at hf
      have hd_mem := List.mem_of_find?_eq_some hfind
      have hd_prop := List.find?_some hfind
      exact ⟨ch, hch, d, hd_mem, by simpa using hd_prop, hp,
        (Option.some.inj hf).symm⟩
    · rw [if_neg hp] at hf
      simp at hf

lemma mem_computeSimilarities {cos : List ℚ → List ℚ → Option ℚ} {qe : List ℚ}
    {rows : List (List Char × Option (List ℚ) × String)}
    {c : ℚ × List Char × String} (hc : c ∈ computeSimilarities cos qe rows) :
    ∃ r ∈ rows, ∃ e, r.2.1 = some e ∧ cos qe e = some c.1 ∧
      c.2.1 = r.1 ∧ c.2.2 = r.2.2 := by
  rw [computeSimilarities, List.mem_filterMap] at hc
  obtain ⟨r, hr, hf⟩ := hc
  cases he : r.2.1 with
  | none => rw [he] at hf; simp at hf
  | some e =>
    rw [he] at hf
    simp only [Option.some_bind] at hf
    cases hcos : cos qe e with
    | none => rw [hcos] at hf; simp at hf
    | some s =>
      rw [hcos] at hf
      simp only [Option.map_some'] at hf
      obtain rfl : (s, r.1, r.2.2) = c := Option.some.inj hf
      exact ⟨r, hr, e, he, hcos, rfl, rfl⟩

/-! ### A concrete project with three chunks of similarities 0.9, 0.2, 0.01 -/

/-- A concrete stand-in for the external cosine computation: each demo
chunk's stored vector directly carries its similarity to the query. -/
def demoCos : List ℚ → List ℚ → Option ℚ := fun _ e => e.head?

def demoQe : List ℚ := [1]

def demoDb : RagDb where
  documents := [⟨1, 1, "manual.txt", "demo document".toList⟩]
  chunks := [⟨1, 1, "alpha".toList, some [mkRat 9 10]⟩,
             ⟨2, 1, "beta".toList, some [mkRat 1 5]⟩,
             ⟨3, 1, "gamma".toList, some [mkRat 1 100]⟩]

/-- C1: `search(q, p)` keeps at most `K = 5` chunks, every kept chunk comes
from a chunk row of a document of project `p`, every kept similarity is at
least `T = 0.05`, the kept chunks are ordered by descending similarity, and
the returned context is exactly the separator-join of their formatted
blocks; on the concrete project with similarities `[0.9, 0.2, 0.01]` the
search keeps exactly the first two chunks in that order. -/
theorem c1_search_top_k_contract :
    (∀ (cos : List ℚ → List ℚ → Option ℚ) (qe : List ℚ) (db : RagDb) (pid : ℤ),
      (relevant_chunks cos qe db pid 5).length ≤ 5 ∧
      (∀ c ∈ relevant_chunks cos qe db pid 5, mkRat 1 20 ≤ c.1) ∧
      (relevant_chunks cos qe db pid 5).Pairwise (fun a b => b.1 ≤ a.1) ∧
      (∀ c ∈ relevant_chunks cos qe db pid 5,
        ∃ ch ∈ db.chunks, ∃ d ∈ db.documents,
          d.id = ch.document_id ∧ d.project_id = pid ∧
          c.2.1 = ch.content ∧ c.2.2 = d.filename) ∧
      search cos qe db pid 5 =
        (if relevant_chunks cos qe db pid 5 = [] then ""
         else String.intercalate "\n\n---\n\n"
           ((relevant_chunks cos qe db pid 5).map contextBlock))) ∧
    relevant_chunks demoCos demoQe demoDb 1 5 =
      [(mkRat 9 10, "alpha".toList, "manual.txt"),
       (mkRat 1 5, "beta".toList, "manual.txt")] ∧
    search demoCos demoQe demoDb 1 5 =
      "[Fonte: manual.txt - Rilevanza: 90.0%]\nalpha\n\n---\n\n[Fonte: manual.txt - Rilevanza: 20.0%]\nbeta" := by
  refine ⟨fun cos qe db pid => ⟨?_, ?_, ?_, ?_, search_eq_relevant cos qe db pid 5⟩,
    by decide, by decide⟩
  · exact (List.length_filter_le _ _).trans
      (by rw [List.length_take]; exact min_le_left _ _)
  · intro c hc
    simpa using (List.mem_filter.mp hc).2
  · exact List.Pairwise.sublist
      ((List.filter_sublist _).trans (List.take_sublist _ _))
      (sorted_sortDesc _)
  · intro c hc
    have h1 : c ∈ sortDesc (computeSimilarities cos qe
        (ragQueryRows db.documents db.chunks pid)) :=
      List.mem_of_mem_take (List.mem_filter.mp hc).1
    obtain ⟨r, hr, e, he, hcos, hcon, hfn⟩ :=
      mem_computeSimilarities (mem_sortDesc h1)
    obtain ⟨ch, hch, d, hd, hid, hpid, hreq⟩ := mem_ragQueryRows hr
    refine ⟨ch, hch, d, hd, hid, hpid, ?_, ?_⟩
    · rw [hcon, hreq]
    · rw [hfn, hreq]

/-- Witness for `c1_search_top_k_contract`: the top demo chunk is a member
of the result, and the theorem's threshold clause applies to it. -/
theorem c1_search_top_k_contract_witness :
    (mkRat 9 10, "alpha".toList, "manual.txt")
      ∈ relevant_chunks demoCos demoQe demoDb 1 5 ∧
    mkRat 1 20 ≤ (mkRat 9 10 : ℚ) :=
  ⟨by decide,
    (c1_search_top_k_contract.1 demoCos demoQe demoDb 1).2.1
      (mkRat 9 10, "alpha".toList, "manual.txt") (by decide)⟩

/-! ### C9: search is error-free and skips unparseable chunks -/

/-- Generic commutation: keeping only the rows on which `f` is predictable
lets the row filter move to the other side of `filterMap`. -/
lemma filterMap_filter_comm {α β : Type} (f : α → Option β) (p : α → Bool)
    (q : β → Bool) (hcomm : ∀ a b, f a = some b → q b = p a) :
    ∀ l : List α, List.filterMap f (l.filter p) = (List.filterMap f l).filter q
  | [] => rfl
  | a :: l => by
    cases hfa : f a with
    | none =>
      rw [List.filter_cons, List.filterMap_cons_none hfa,
        ← filterMap_filter_comm f p q hcomm l]
      by_cases hpa : p a
      · rw [if_pos hpa, List.filterMap_cons_none hfa]
      · rw [if_neg hpa]
    | some b =>
      have hq : q b = p a := hcomm a b hfa
      rw [List.filter_cons, List.filterMap_cons_some hfa, List.filter_cons, hq]
      by_cases hpa : p a
      · rw [if_pos hpa, if_pos hpa, List.filterMap_cons_some hfa,
          filterMap_filter_comm f p q hcomm l]
      · rw [if_neg hpa, if_neg hpa, filterMap_filter_comm f p q hcomm l]

/-- Rows dropped by the filter contribute nothing to the `filterMap`. -/
lemma filterMap_filter_eq {α β : Type} (f : α → Option β) (p : α → Bool)
    (h : ∀ a, p a = false → f a = none) :
    ∀ l : List α, List.filterMap f (l.filter p) = List.filterMap f l
  | [] => rfl
  | a :: l => by
    rw [List.filter_cons]
    by_cases hpa : p a
    · rw [if_pos hpa]
      cases hfa : f a with
      | none =>
        rw [List.filterMap_cons_none hfa, List.filterMap_cons_none hfa]
        exact filterMap_filter_eq f p h l
      | some b =>
        rw [List.filterMap_cons_some hfa, List.filterMap_cons_some hfa]
        exact congrArg _ (filterMap_filter_eq f p h l)
    · rw [if_neg hpa,
        List.filterMap_cons_none (h a (Bool.not_eq_true _ ▸ hpa)),
        filterMap_filter_eq f p h l]

lemma ragQueryRows_filter_isSome (documents : List RagDocument)
    (chunks : List RagChunk) (pid : ℤ) :
    ragQueryRows documents (chunks.filter fun ch => ch.embedding.isSome) pid
      = (ragQueryRows documents chunks pid).filter fun r => r.2.1.isSome := by
  rw [ragQueryRows, ragQueryRows]
  apply filterMap_filter_comm
  intro ch r hrow
  cases hfind : documents.find? (fun d => d.id == ch.document_id) with
  | none => rw [hfind] at hrow; simp at hrow
  | some d =>
    rw [hfind] at hrow
    simp only [Option.some_bind] at hrow
    by_cases hp : d.project_id = pid
    · rw [if_pos hp] at hrow
      have : (ch.content, ch.embedding, d.filename) = r := Option.some.inj hrow
      rw [← this]
    · rw [if_neg hp] at hrow
      simp at hrow

lemma computeSimilarities_filter_isSome (cos : List ℚ → List ℚ → Option ℚ)
    (qe : List ℚ) (rows : List (List Char × Option (List ℚ) × String)) :
    computeSimilarities cos qe (rows.filter fun r => r.2.1.isSome)
      = computeSimilarities cos qe rows := by
  rw [computeSimilarities, computeSimilarities]
  apply filterMap_filter_eq
  intro r hr
  have : r.2.1 = none := by
    cases h : r.2.1 with
    | none => rfl
    | some e => rw [h] at hr; simp at hr
  rw [this]
  rfl

/-- C9: `search` raises no error and writes nothing (the model is a total
function from the read-only tables to the context string): a project with
no chunk rows yields the empty context; a project whose stored embeddings
are all unparseable yields the empty context; and rows with unparseable
embeddings are skipped — deleting them from the table leaves every search
result unchanged. -/
theorem c9_search_error_free :
    (∀ (cos : List ℚ → List ℚ → Option ℚ) (qe : List ℚ) (db : RagDb)
        (pid : ℤ) (k : ℕ),
      ragQueryRows db.documents db.chunks pid = [] →
        search cos qe db pid k = "") ∧
    (∀ (cos : List ℚ → List ℚ → Option ℚ) (qe : List ℚ) (db : RagDb)
        (pid : ℤ) (k : ℕ),
      (∀ r ∈ ragQueryRows db.documents db.chunks pid, r.2.1 = none) →
        search cos qe db pid k = "") ∧
    (∀ (cos : List ℚ → List ℚ → Option ℚ) (qe : List ℚ) (db : RagDb)
        (pid : ℤ) (k : ℕ),
      search cos qe db pid k =
        search cos qe ⟨db.documents,
          db.chunks.filter fun ch => ch.embedding.isSome⟩ pid k) := by
  refine ⟨?_, ?_, ?_⟩
  · intro cos qe db pid k h
    rw [search, if_pos h]
  · intro cos qe db pid k h
    have hsim : computeSimilarities cos qe
        (ragQueryRows db.documents db.chunks pid) = [] := by
      rw [computeSimilarities, List.filterMap_eq_nil_iff]
      intro r hr
      rw [h r hr]
      rfl
    rw [search]
    by_cases hrows : ragQueryRows db.documents db.chunks pid = []
    · rw [if_pos hrows]
    · rw [if_neg hrows, if_pos hsim]
  · intro cos qe db pid k
    have hsims : computeSimilarities cos qe
        (ragQueryRows db.documents
          (db.chunks.filter fun ch => ch.embedding.isSome) pid)
        = computeSimilarities cos qe (ragQueryRows db.documents db.chunks pid) := by
      rw [ragQueryRows_filter_isSome, computeSimilarities_filter_isSome]
    rw [search_eq_relevant, search_eq_relevant, relevant_chunks, relevant_chunks]
    simp only [hsims]

/-- Witness for `c9_search_error_free`: a project with no documents and no
chunks returns the empty context. -/
theorem c9_search_error_free_witness :
    ragQueryRows ([] : List RagDocument) ([] : List RagChunk) 1 = [] ∧
    search demoCos demoQe ⟨[], []⟩ 1 5 = "" :=
  ⟨rfl, c9_search_error_free.1 demoCos demoQe ⟨[], []⟩ 1 5 rfl⟩

/-! ### Provider routing (`main.py`, `/v1/chat/completions`)

Configuration truthiness of `AZURE_API_KEY`, `AZURE_ENDPOINT`,
`OPENROUTER_API_KEY` and `LOCAL_ENDPOINT` is modelled as four booleans;
`DEFAULT_PROVIDER` is the constant `"azure"` (`main.py` line 144).
`HTTPException` raising is modelled with `Except`: the pre-dispatch
resolution happens entirely before any upstream request is built, so a
`.error` outcome means the call fails before any network call. -/

structure ProviderConfig where
  azure_api_key : Bool
  azure_endpoint : Bool
  openrouter_api_key : Bool
  local_endpoint : Bool
deriving DecidableEq

def noProviderMsg : String :=
  "No provider configured. Please set Azure, Local, or OpenRouter settings."

/-- `main.py` lines 689-698: Azure selected but not configured. -/
def azureStep (cfg : ProviderConfig) (p : String) : Except String String :=
  if p == "azure" && (!cfg.azure_api_key || !cfg.azure_endpoint) then
    if cfg.local_endpoint then .ok "local"
    else if cfg.openrouter_api_key then .ok "openrouter"
    else .error noProviderMsg
  else .ok p

/-- `main.py` lines 700-709: OpenRouter selected but not configured. -/
def openrouterStep (cfg : ProviderConfig) (p : String) : Except String String :=
  if p == "openrouter" && !cfg.openrouter_api_key then
    if cfg.local_endpoint then .ok "local"
    else if cfg.azure_api_key && cfg.azure_endpoint then .ok "azure"
    else .error noProviderMsg
  else .ok p

/-- `main.py` lines 711-720: Local selected but not configured. -/
def localStep (cfg : ProviderConfig) (p : String) : Except String String :=
  if p == "local" && !cfg.local_endpoint then
    if cfg.azure_api_key && cfg.azure_endpoint then .ok "azure"
    else if cfg.openrouter_api_key then .ok "openrouter"
    else .error noProviderMsg
  else .ok p

/-- `main.py` lines 684-720: `provider = request.provider or DEFAULT_PROVIDER`,
the supported-provider check, then the three sequential availability
fallback blocks. -/
def resolve_provider (cfg : ProviderConfig) (requested : Option String) :
    Except String String :=
  let provider := requested.getD "azure"
  if !(provider == "azure" || provider == "openrouter" || provider == "local") then
    .error ("Unsupported provider: " ++ provider)
  else
    match azureStep cfg provider with
    | .error e => .error e
    | .ok p1 =>
      match openrouterStep cfg p1 with
      | .error e => .error e
      | .ok p2 => localStep cfg p2

/-- C3: without an explicit provider choice the default is Azure; if Azure
is unavailable and Local is available, routing resolves to Local; if no
provider is available, resolution fails with the fatal configuration
message before any dispatch. -/
theorem c3_provider_selection :
    (∀ cfg : ProviderConfig,
      (cfg.azure_api_key && cfg.azure_endpoint) = false →
      cfg.local_endpoint = true →
      resolve_provider cfg none = .ok "local") ∧
    (∀ cfg : ProviderConfig,
      (cfg.azure_api_key && cfg.azure_endpoint) = false →
      cfg.openrouter_api_key = false →
      cfg.local_endpoint = false →
      resolve_provider cfg none = .error noProviderMsg) := by
  constructor
  · intro cfg
    obtain ⟨a, b, o, l⟩ := cfg
    cases a <;> cases b <;> cases o <;> cases l <;> intro h1 h2 <;>
      first
        | rfl
        | exact absurd h1 (by decide)
        | exact absurd h2 (by decide)
  · intro cfg
    obtain ⟨a, b, o, l⟩ := cfg
    cases a <;> cases b <;> cases o <;> cases l <;> intro h1 h2 h3 <;>
      first
        | rfl
        | exact absurd h1 (by decide)
        | exact absurd h2 (by decide)
        | exact absurd h3 (by decide)

/-- Witness for `c3_provider_selection`: Azure unconfigured, Local
configured, no explicit choice resolves to Local. -/
theorem c3_provider_selection_witness :
    ((false && true) = false ∧ true = true) ∧
    resolve_provider ⟨false, true, false, true⟩ none = .ok "local" :=
  ⟨⟨rfl, rfl⟩, c3_provider_selection.1 ⟨false, true, false, true⟩ rfl rfl⟩

/-! ### Runtime failover (`main.py`, lines 763-793) -/

def both_failed_msg (e1 e2 : String) : String :=
  "Both providers failed: " ++ e1 ++ " | " ++ e2

/-- The `try/except` around the dispatched request: a failure of the Azure
dispatch retries once against OpenRouter when its key is configured, a
failure of the OpenRouter dispatch retries once against Azure when it is
configured, anything else re-raises.  The second component records which
providers were actually dispatched, in order. -/
def dispatch_with_failover (cfg : ProviderConfig)
    (dispatch : String → Except String String) (provider : String) :
    Except String String × List String :=
  match dispatch provider with
  | .ok r => (.ok r, [provider])
  | .error e =>
    if provider == "azure" && cfg.openrouter_api_key then
      match dispatch "openrouter" with
      | .ok r => (.ok r, [provider, "openrouter"])
      | .error e2 => (.error (both_failed_msg e e2), [provider, "openrouter"])
    else if provider == "openrouter" && cfg.azure_api_key && cfg.azure_endpoint then
      match dispatch "azure" with
      | .ok r => (.ok r, [provider, "azure"])
      | .error e2 => (.error (both_failed_msg e e2), [provider, "azure"])
    else (.error e, [provider])

/-- C4: at most two dispatches ever happen; the first goes to the selected
provider; Local is never a retry target; a Local failure is never retried;
a failed Azure dispatch retries exactly once against OpenRouter (and
symmetrically), surfacing both errors concatenated if the retry also
fails; with no eligible retry the original error is surfaced. -/
theorem c4_failover_one_retry :
    ∀ (cfg : ProviderConfig) (dispatch : String → Except String String)
      (provider : String),
      (dispatch_with_failover cfg dispatch provider).2.length ≤ 2 ∧
      (dispatch_with_failover cfg dispatch provider).2.head? = some provider ∧
      "local" ∉ (dispatch_with_failover cfg dispatch provider).2.tail ∧
      (∀ r, dispatch provider = .ok r →
        dispatch_with_failover cfg dispatch provider = (.ok r, [provider])) ∧
      (∀ e, provider = "local" → dispatch "local" = .error e →
        dispatch_with_failover cfg dispatch provider = (.error e, ["local"])) ∧
      (∀ e e2, provider = "azure" → dispatch "azure" = .error e →
        cfg.openrouter_api_key = true → dispatch "openrouter" = .error e2 →
        dispatch_with_failover cfg dispatch provider
          = (.error (both_failed_msg e e2), ["azure", "openrouter"])) ∧
      (∀ e e2, provider = "openrouter" → dispatch "openrouter" = .error e →
        (cfg.azure_api_key && cfg.azure_endpoint) = true →
        dispatch "azure" = .error e2 →
        dispatch_with_failover cfg dispatch provider
          = (.error (both_failed_msg e e2), ["openrouter", "azure"])) := by
  intro cfg dispatch provider
  cases hdp : dispatch provider with
  | ok r =>
    have hD : dispatch_with_failover cfg dispatch provider = (.ok r, [provider]) := by
      simp only [dispatch_with_failover, hdp]
    rw [hD]
    refine ⟨by simp, rfl, by simp, ?_, ?_, ?_, ?_⟩
    · intro r' hr'
      injection hr' with h
      rw [h]
    · intro e hlp he
      rw [hlp] at hdp
      rw [hdp] at he
      exact absurd he (by simp)
    · intro e e2 hlp he _ _
      rw [hlp] at hdp
      rw [hdp] at he
      exact absurd he (by simp)
    · intro e e2 hlp he _ _
      rw [hlp] at hdp
      rw [hdp] at he
      exact absurd he (by simp)
  | error e =>
    by_cases h1 : (provider == "azure" && cfg.openrouter_api_key) = true
    · have hpa : provider = "azure" :=
        beq_iff_eq.mp (Bool.and_eq_true _ _ ▸ h1).1
      cases hdo : dispatch "openrouter" with
      | ok r =>
        have hD : dispatch_with_failover cfg dispatch provider
            = (.ok r, [provider, "openrouter"]) := by
          simp only [dispatch_with_failover, hdp]
          rw [if_pos h1, hdo]
        rw [hD]
        refine ⟨by simp, rfl, by simp, ?_, ?_, ?_, ?_⟩
        · intro r' hr'
          exact absurd hr' (by simp)
        · intro e' hlp _
          rw [hlp] at hpa
          exact absurd hpa (by simp)
        · intro e' e2' _ _ _ hdo'
          exact absurd hdo' (by simp)
        · intro e' e2' hlp _ _ _
          rw [hlp] at hpa
          exact absurd hpa (by simp)
      | error e2 =>
        have hD : dispatch_with_failover cfg dispatch provider
            = (.error (both_failed_msg e e2), [provider, "openrouter"]) := by
          simp only [dispatch_with_failover, hdp]
          rw [if_pos h1, hdo]
        rw [hD]
        refine ⟨by simp, rfl, by simp, ?_, ?_, ?_, ?_⟩
        · intro r' hr'
          exact absurd hr' (by simp)
        · intro e' hlp _
          rw [hlp] at hpa
          exact absurd hpa (by simp)
        · intro e' e2' hpa' he' _ hdo'
          rw [hpa'] at hdp
          rw [hdp] at he'
          injection he' with h
          injection hdo' with h2
          rw [← h, ← h2, hpa]
        · intro e' e2' hlp _ _ _
          rw [hlp] at hpa
          exact absurd hpa (by simp)
    · by_cases h2 : (provider == "openrouter" && cfg.azure_api_key
          && cfg.azure_endpoint) = true
      · have hpo : provider = "openrouter" :=
          beq_iff_eq.mp (Bool.and_eq_true _ _ ▸ (Bool.and_eq_true _ _ ▸ h2).1).1
        cases hda : dispatch "azure" with
        | ok r =>
          have hD : dispatch_with_failover cfg dispatch provider
              = (.ok r, [provider, "azure"]) := by
            simp only [dispatch_with_failover, hdp]
            rw [if_neg h1, if_pos h2, hda]
          rw [hD]
          refine ⟨by simp, rfl, by simp, ?_, ?_, ?_, ?_⟩
          · intro r' hr'
            exact absurd hr' (by simp)
          · intro e' hlp _
            rw [hlp] at hpo
            exact absurd hpo (by simp)
          · intro e' e2' hpa' _ _ _
            rw [hpa'] at hpo
            exact absurd hpo (by simp)
          · intro e' e2' _ _ _ hda'
            exact absurd hda' (by simp)
        | error e2 =>
          have hD : dispatch_with_failover cfg dispatch provider
              = (.error (both_failed_msg e e2), [provider, "azure"]) := by
            simp only [dispatch_with_failover, hdp]
            rw [if_neg h1, if_pos h2, hda]
          rw [hD]
          refine ⟨by simp, rfl, by simp, ?_, ?_, ?_, ?_⟩
          · intro r' hr'
            exact absurd hr' (by simp)
          · intro e' hlp _
            rw [hlp] at hpo
            exact absurd hpo (by simp)
          · intro e' e2' hpa' _ _ _
            rw [hpa'] at hpo
            exact absurd hpo (by simp)
          · intro e' e2' hpo' ho' _ hda'
            rw [hpo'] at hdp
            rw [hdp] at ho'
            injection ho' with h
            injection hda' with hh2
            rw [← h, ← hh2, hpo]
      · have hD : dispatch_with_failover cfg dispatch provider
            = (.error e, [provider]) := by
          simp only [dispatch_with_failover, hdp]
          rw [if_neg h1, if_neg h2]
        rw [hD]
        refine ⟨by simp, rfl, by simp, ?_, ?_, ?_, ?_⟩
        · intro r' hr'
          exact absurd hr' (by simp)
        · intro e' hlp he'
          rw [hlp] at hdp
          rw [hdp] at he'
          injection he' with h
          rw [← h, hlp]
        · intro e' e2' hpa' _ hok' _
          rw [hpa'] at h1
          simp [hok'] at h1
        · intro e' e2' hpo' _ haz' _
          rw [hpo'] at h2
          have hsplit := Bool.and_eq_true _ _ ▸ haz'
          simp [hsplit.1, hsplit.2] at h2

/-- Witness for `c4_failover_one_retry`: with OpenRouter configured and both
dispatches failing, the Azure request is retried exactly once against
OpenRouter and both errors are surfaced concatenated. -/
theorem c4_failover_one_retry_witness :
    dispatch_with_failover ⟨true, true, true, true⟩
        (fun _ => .error "boom") "azure"
      = (.error (both_failed_msg "boom" "boom"), ["azure", "openrouter"]) :=
  (c4_failover_one_retry ⟨true, true, true, true⟩ (fun _ => .error "boom")
    "azure").2.2.2.2.2.1 "boom" "boom" rfl rfl rfl rfl

/-! ### Streaming relay (`forward_azure_streaming_request`,
`forward_openrouter_streaming_request`; `main.py` lines 841-901, 960-1018)

The chat store is modelled as an association list from chat id to message
list; `get_chat` / `update_chat` are the narrow read/write calls of
`db/db.py` (an UPDATE of an absent id is a no-op).  The upstream HTTP
response is modelled by its status code and the list of text chunks
`aiter_text` would yield; `json.loads` plus the
`choices[0].delta.content` extraction is the external JSON collaborator,
modelled as the parameter `parseDelta` applied to `chunk[6:]` (`none`
models any parse failure, swallowed by the bare `except`). -/

structure PyMsg where
  role : String
  content : String
deriving DecidableEq

abbrev ChatStore := List (ℕ × List PyMsg)

def get_chat (store : ChatStore) (cid : ℕ) : Option (List PyMsg) :=
  (store.find? fun p => p.1 == cid).map (·.2)

def update_chat (store : ChatStore) (cid : ℕ) (msgs : List PyMsg) : ChatStore :=
  store.map fun p => if p.1 = cid then (cid, msgs) else p

/-- The synthetic server-sent error event emitted on a non-2xx upstream
status, e.g. `data: {"error": "Azure error: Status 500"}\n\n`. -/
def sse_error_event (label : String) (status : ℕ) : String :=
  "data: \x7b\"error\": \"" ++ label ++ " error: Status " ++ toString status
    ++ "\"\x7d\n\n"

/-- Python `chunk.startswith(pre)` (code-point prefix test). -/
def strStartsWith (s pre : String) : Bool :=
  pre.toList.isPrefixOf s.toList

/-- The per-chunk condition guarding transcript extraction:
`chat_id and chunk.startswith("data: ") and not chunk.startswith("data: [DONE]")`
plus the inner `chunk.strip() != "data: [DONE]"` re-check. -/
def delta_of (parseDelta : String → Option String) (chat_id : Option ℕ)
    (c : String) : Option String :=
  if chat_id.isSome && strStartsWith c "data: "
      && !(strStartsWith c "data: [DONE]")
      && (String.mk (pyStrip c.toList) != "data: [DONE]") then
    parseDelta (c.drop 6)
  else none

/-- The in-memory transcript accumulator `full_response`. -/
def full_response_of (parseDelta : String → Option String)
    (chat_id : Option ℕ) (chunks : List String) : String :=
  chunks.foldl
    (fun acc c =>
      match delta_of parseDelta chat_id c with
      | some d => acc ++ d
      | none => acc)
    ""

/-- Append the caller's outgoing user messages to the stored chat (the
read-modify-write before relaying begins). -/
def store_user_messages (chat_id : Option ℕ) (messages : List PyMsg)
    (store : ChatStore) : ChatStore :=
  match chat_id with
  | none => store
  | some cid =>
    match get_chat store cid with
    | none => store
    | some existing => update_chat store cid (existing ++ messages)

/-- Append the accumulated assistant transcript after the stream ends
(only when non-empty). -/
def store_assistant_message (chat_id : Option ℕ) (full : String)
    (store : ChatStore) : ChatStore :=
  match chat_id with
  | none => store
  | some cid =>
    if full ≠ "" then
      match get_chat store cid with
      | none => store
      | some existing =>
        update_chat store cid (existing ++ [⟨"assistant", full⟩])
    else store

/-- The `stream_generator` body shared verbatim by the Azure and OpenRouter
streaming handlers: on a non-2xx status, yield exactly one synthetic error
event and stop (no chunk is read, no storage write happens); otherwise
store the user messages, forward every upstream chunk unconditionally
while accumulating the transcript, then store the assistant message.
Returns (yielded chunks, resulting chat store). -/
def stream_generator (label : String) (parseDelta : String → Option String)
    (status : ℕ) (chunks : List String) (chat_id : Option ℕ)
    (messages : List PyMsg) (store : ChatStore) : List String × ChatStore :=
  if status ≠ 200 then ([sse_error_event label status], store)
  else
    let store1 := store_user_messages chat_id messages store
    let full := full_response_of parseDelta chat_id chunks
    let store2 := store_assistant_message chat_id full store1
    (chunks, store2)

/-- `forward_azure_streaming_request` (`main.py` 841-901). -/
def forward_azure_streaming_request (parseDelta : String → Option String)
    (status : ℕ) (chunks : List String) (chat_id : Option ℕ)
    (messages : List PyMsg) (store : ChatStore) : List String × ChatStore :=
  stream_generator "Azure" parseDelta status chunks chat_id messages store

/-- `forward_openrouter_streaming_request` (`main.py` 960-1018). -/
def forward_openrouter_streaming_request (parseDelta : String → Option String)
    (status : ℕ) (chunks : List String) (chat_id : Option ℕ)
    (messages : List PyMsg) (store : ChatStore) : List String × ChatStore :=
  stream_generator "OpenRouter" parseDelta status chunks chat_id messages store

lemma strFoldl_append : ∀ (l : List String) (a : String),
    l.foldl (· ++ ·) a = a ++ String.join l
  | [], a => by simp [String.join]
  | s :: l, a => by
    rw [List.foldl_cons, strFoldl_append l (a ++ s)]
    have h1 : String.join (s :: l) = s ++ String.join l := by
      show (s :: l).foldl (· ++ ·) "" = s ++ String.join l
      rw [List.foldl_cons, strFoldl_append l ("" ++ s)]
      simp
    rw [h1, String.append_assoc]

lemma strJoin_cons (s : String) (l : List String) :
    String.join (s :: l) = s ++ String.join l := by
  show (s :: l).foldl (· ++ ·) "" = s ++ String.join l
  rw [List.foldl_cons, strFoldl_append l ("" ++ s)]
  simp

lemma full_response_foldl_acc (parseDelta : String → Option String)
    (chat_id : Option ℕ) : ∀ (chunks : List String) (acc : String),
    chunks.foldl
      (fun acc c =>
        match delta_of parseDelta chat_id c with
        | some d => acc ++ d
        | none => acc)
      acc
      = acc ++ String.join (chunks.filterMap (delta_of parseDelta chat_id))
  | [], acc => by simp [String.join]
  | c :: cs, acc => by
    rw [List.foldl_cons]
    cases hd : delta_of parseDelta chat_id c with
    | none =>
      rw [List.filterMap_cons_none hd]
      exact full_response_foldl_acc parseDelta chat_id cs acc
    | some d =>
      rw [List.filterMap_cons_some hd,
        full_response_foldl_acc parseDelta chat_id cs (acc ++ d),
        strJoin_cons, String.append_assoc]

/-- The accumulated transcript is the concatenation of the extracted
content deltas of the data-marked chunks, in stream order. -/
lemma full_response_eq_join (parseDelta : String → Option String)
    (chat_id : Option ℕ) (chunks : List String) :
    full_response_of parseDelta chat_id chunks
      = String.join (chunks.filterMap (delta_of parseDelta chat_id)) := by
  rw [full_response_of, full_response_foldl_acc]
  simp

/-! ### The concrete two-delta stream of the C2 scenario -/

def demoChunkHi : String :=
  "data: \x7b\"choices\":[\x7b\"delta\":\x7b\"content\":\"Hi\"\x7d\x7d]\x7d\n\n"

def demoChunkThere : String :=
  "data: \x7b\"choices\":[\x7b\"delta\":\x7b\"content\":\" there\"\x7d\x7d]\x7d\n\n"

def demoChunkDone : String := "data: [DONE]\n\n"

/-- A concrete stand-in for `json.loads` + delta extraction on the two
demo payloads. -/
def demoParse (payload : String) : Option String :=
  if payload = demoChunkHi.drop 6 then some "Hi"
  else if payload = demoChunkThere.drop 6 then some " there"
  else none

/-- C2: on a 2xx upstream response both streaming relays forward every
upstream chunk unchanged and in order (the yielded stream is byte-identical
to the upstream stream, whatever the parse outcomes are), and the
reconstructed transcript is exactly the concatenation of the content deltas
of the data-marked chunks; for the concrete stream carrying deltas `"Hi"`
and `" there"` followed by the `[DONE]` sentinel, the transcript is
`"Hi there"`. -/
theorem c2_streaming_relay_byte_identical :
    (∀ (parseDelta : String → Option String) (chunks : List String)
        (chat_id : Option ℕ) (messages : List PyMsg) (store : ChatStore),
      (forward_azure_streaming_request parseDelta 200 chunks chat_id
        messages store).1 = chunks ∧
      (forward_openrouter_streaming_request parseDelta 200 chunks chat_id
        messages store).1 = chunks) ∧
    (∀ (parseDelta : String → Option String) (cid : ℕ) (chunks : List String),
      full_response_of parseDelta (some cid) chunks
        = String.join (chunks.filterMap (delta_of parseDelta (some cid)))) ∧
    full_response_of demoParse (some 7)
      [demoChunkHi, demoChunkThere, demoChunkDone] = "Hi there" := by
  refine ⟨fun parseDelta chunks chat_id messages store => ⟨rfl, rfl⟩,
    fun parseDelta cid chunks => full_response_eq_join parseDelta (some cid) chunks,
    by decide⟩

/-- C10: if the upstream answers with a non-2xx status, the generator emits
exactly one synthetic error event and returns before either storage write,
so the stored chat messages are completely unchanged. -/
theorem c10_error_before_relay_leaves_chat_unchanged :
    ∀ (parseDelta : String → Option String) (status : ℕ)
      (chunks : List String) (chat_id : Option ℕ) (messages : List PyMsg)
      (store : ChatStore),
      status ≠ 200 →
      forward_azure_streaming_request parseDelta status chunks chat_id
          messages store
        = ([sse_error_event "Azure" status], store) ∧
      forward_openrouter_streaming_request parseDelta status chunks chat_id
          messages store
        = ([sse_error_event "OpenRouter" status], store) := by
  intro parseDelta status chunks chat_id messages store h
  constructor
  · rw [forward_azure_streaming_request, stream_generator, if_pos h]
  · rw [forward_openrouter_streaming_request, stream_generator, if_pos h]

/-- Witness for `c10_error_before_relay_leaves_chat_unchanged` at a
concrete 500 status and a non-empty stored chat. -/
theorem c10_error_before_relay_witness :
    (500 ≠ 200) ∧
    forward_azure_streaming_request demoParse 500
        [demoChunkHi] (some 7) [⟨"user", "hello"⟩]
        [(7, [⟨"system", "s"⟩])]
      = ([sse_error_event "Azure" 500], [(7, [⟨"system", "s"⟩])]) :=
  ⟨by decide,
    (c10_error_before_relay_leaves_chat_unchanged demoParse 500 [demoChunkHi]
      (some 7) [⟨"user", "hello"⟩] [(7, [⟨"system", "s"⟩])] (by decide)).1⟩

/-! ### `SimpleRAG.add_document` (`rag_simple.py`, lines 58-105)

The sqlite connection opens an implicit transaction on the first INSERT;
`conn.commit()` is only reached on the non-empty-chunks path, and the
`finally: conn.close()` rolls back any uncommitted transaction.  The model
therefore returns the untouched store on the zero-chunk path (the code
still returns the computed `doc_id` of the rolled-back row).  Embedding
computation (`model.encode`, one vector per chunk) is the external model,
passed as `embed`; row ids model sqlite AUTOINCREMENT for append-only
tables. -/

def add_document (embed : List Char → List ℚ) (db : RagDb) (project_id : ℤ)
    (filename : String) (content : List Char) : RagDb × ℕ :=
  let doc_id := db.documents.length + 1
  let docsWithNew := db.documents ++ [⟨doc_id, project_id, filename, content⟩]
  let chunks := chunk_text content 500
  if chunks = [] then (db, doc_id)
  else
    let newRows := chunks.enum.map fun ic =>
      RagChunk.mk (db.chunks.length + 1 + ic.1) doc_id ic.2 (some (embed ic.2))
    (RagDb.mk docsWithNew (db.chunks ++ newRows), doc_id)

/-- C8 (code bug): one ingestion call persists exactly one Document row and
one Chunk row per produced chunk — except that on the zero-chunk path the
function returns without committing, so closing the connection rolls the
Document INSERT back and no row at all is persisted, contradicting the
claim that the Document is still created with zero chunks.  The first
conjunct evaluates the failing input; the others give the persisted row
counts on every path. -/
theorem c8_add_document_rows :
    chunk_text "   \n\n   ".toList 500 = [] ∧
    (∀ (embed : List Char → List ℚ) (db : RagDb) (pid : ℤ),
      (add_document embed db pid "empty.txt" "   \n\n   ".toList).1 = db) ∧
    (∀ (embed : List Char → List ℚ) (db : RagDb) (pid : ℤ)
        (fn : String) (content : List Char),
      (add_document embed db pid fn content).1.documents.length =
        (if chunk_text content 500 = [] then db.documents.length
         else db.documents.length + 1) ∧
      (add_document embed db pid fn content).1.chunks.length =
        db.chunks.length +
          (if chunk_text content 500 = [] then 0
           else (chunk_text content 500).length)) := by
  refine ⟨by decide, ?_, ?_⟩
  · intro embed db pid
    have h : chunk_text "   \n\n   ".toList 500 = [] := by decide
    simp only [add_document]
    rw [if_pos h]
  · intro embed db pid fn content
    rw [add_document]
    by_cases h : chunk_text content 500 = []
    · rw [if_pos h]
      simp [h]
    · rw [if_neg h]
      simp [List.length_append, List.length_map, List.enum_length, h]

/-! ### `enhance_text_with_markdown` (`main.py`, lines 509-559)

Python string predicates are modelled per code point over the ASCII range
(`isupper`: at least one cased character and no lowercase one; `isdigit`,
`lower`, `capitalize` as usual).  `str.replace` replaces every
non-overlapping occurrence left to right (the replaced needles here are
always non-empty). -/

def pyLower (l : List Char) : List Char := l.map Char.toLower

/-- Python `str.capitalize()`: first character upper-cased, rest lowered. -/
def pyCapitalize : List Char → List Char
  | [] => []
  | c :: cs => c.toUpper :: cs.map Char.toLower

/-- Python `str.isupper()` over ASCII: some cased character, and every
cased character is uppercase. -/
def pyIsUpper (w : List Char) : Bool :=
  w.any (fun c => c.isAlpha) && w.all fun c => !c.isAlpha || c.isUpper

/-- Worker for Python `str.split()` (split on whitespace runs); `acc` is
the current word, reversed. -/
def splitWsAux : List Char → List Char → List (List Char)
  | [], acc => if acc = [] then [] else [acc.reverse]
  | c :: rest, acc =>
    if isSpaceB c then
      if acc = [] then splitWsAux rest []
      else acc.reverse :: splitWsAux rest []
    else splitWsAux rest (c :: acc)

/-- Python `str.split()` with no separator. -/
def pySplitWs (l : List Char) : List (List Char) := splitWsAux l []

/-- Worker for Python `str.replace` with fuel (the needle is non-empty in
every use, so `s.length` fuel always suffices). -/
def pyReplaceF (old new : List Char) : ℕ → List Char → List Char
  | 0, s => s
  | _ + 1, [] => []
  | fuel + 1, c :: rest =>
    if old.isPrefixOf (c :: rest) then
      new ++ pyReplaceF old new fuel ((c :: rest).drop old.length)
    else c :: pyReplaceF old new fuel rest

/-- Python `s.replace(old, new)` (non-overlapping, left to right). -/
def pyReplace (old new s : List Char) : List Char :=
  pyReplaceF old new s.length s

def mdIndicators : List (List Char) :=
  [['*', '*'], ['*'], ['`'], ['#'], ['#', '#'], ['#', '#', '#'],
   ['-'], ['1', '.'], ['>'], ['`', '`', '`']]

def hasMarkdownB (t : List Char) : Bool :=
  mdIndicators.any fun ind => decide (ind <:+: t)

def fileExts : List (List Char) :=
  [['.', 'p', 'y'], ['.', 'j', 's'], ['.', 'c', 's', 's'],
   ['.', 'h', 't', 'm', 'l'], ['.', 'j', 's', 'o', 'n']]

def importantWords : List (List Char) :=
  ["importante".toList, "attenzione".toList, "nota".toList, "errore".toList,
   "successo".toList, "warning".toList, "error".toList]

def boldWrap (w : List Char) : List Char := ['*', '*'] ++ w ++ ['*', '*']

/-- One iteration of the important-word loop:
`if word.lower() in line.lower(): line = line.replace(word, f"**{word}**");
line = line.replace(word.capitalize(), f"**{word.capitalize()}**")`. -/
def boldifyStep (l w : List Char) : List Char :=
  if pyLower w <:+: pyLower l then
    pyReplace (pyCapitalize w) (boldWrap (pyCapitalize w))
      (pyReplace w (boldWrap w) l)
  else l

/-- Back-tick wrapping of technical words inside the uppercase/extension
branch. -/
def wrapTech (w : List Char) : List Char :=
  if (pyIsUpper w = true ∧ w.length > 2)
      ∨ (∃ e ∈ fileExts, e <:+: pyLower w) then
    '`' :: (w ++ ['`'])
  else w

/-- `line.endswith(':') and len(line) > 10`. -/
def headingCond (l : List Char) : Prop := l.getLast? = some ':' ∧ l.length > 10

instance (l : List Char) : Decidable (headingCond l) := by
  unfold headingCond
  infer_instance

/-- `line.startswith(('- ', '• ', '* ')) or (len(line) > 3 and
line[0].isdigit() and line[1:3] in ['. ', ') '])`. -/
def listCond (l : List Char) : Prop :=
  ("- ".toList.isPrefixOf l = true ∨ "• ".toList.isPrefixOf l = true
    ∨ "* ".toList.isPrefixOf l = true)
  ∨ (l.length > 3 ∧ (l.headD ' ').isDigit = true
    ∧ ((l.drop 1).take 2 = ". ".toList ∨ (l.drop 1).take 2 = ") ".toList))

instance (l : List Char) : Decidable (listCond l) := by
  unfold listCond
  infer_instance

/-- `any(word.isupper() and len(word) > 2 for word in line.split()) or
any(ext in line.lower() for ext in [...])`. -/
def techCond (l : List Char) : Prop :=
  (∃ w ∈ pySplitWs l, pyIsUpper w = true ∧ w.length > 2)
  ∨ (∃ e ∈ fileExts, e <:+: pyLower l)

instance (l : List Char) : Decidable (techCond l) := by
  unfold techCond
  infer_instance

/-- The per-line body of the enhancement loop, after `line = line.strip()`. -/
def processStripped (l : List Char) : List Char :=
  if l = [] then []
  else if headingCond l then "### ".toList ++ l
  else if listCond l then l
  else if techCond l then joinSep [' '] ((pySplitWs l).map wrapTech)
  else importantWords.foldl boldifyStep l

/-- The per-line body of the enhancement loop. -/
def processLine (l0 : List Char) : List Char :=
  processStripped (pyStrip l0)

/-- `enhance_text_with_markdown`: return empty and already-markdown text
unchanged, otherwise enhance line by line. -/
def enhance_text_with_markdown (t : List Char) : List Char :=
  if t = [] then t
  else if hasMarkdownB t then t
  else joinSep ['\n'] ((splitNL t).map processLine)

example : enhance_text_with_markdown "ciao mondo".toList = "ciao mondo".toList := by decide
example : enhance_text_with_markdown "use HTTP here".toList = "use `HTTP` here".toList := by decide
example : enhance_text_with_markdown "nota bene".toList = "**nota** bene".toList := by decide
example : enhance_text_with_markdown "errore".toList = "****error**e**".toList := by decide
example : enhance_text_with_markdown "this is a list:".toList = "### this is a list:".toList := by decide
example : enhance_text_with_markdown "already **bold**".toList = "already **bold**".toList := by decide
example : enhance_text_with_markdown "2. item".toList = "2. item".toList := by decide
example : enhance_text_with_markdown "open main.py now".toList = "open `main.py` now".toList := by decide
example : enhance_text_with_markdown "  hi  \nyou  ".toList = "hi\nyou".toList := by decide

/-! ### Lemmas about `splitNL` and `pySplitWs` -/

lemma splitNL_ne_nil (t : List Char) : splitNL t ≠ [] := by
  induction t with
  | nil => simp [splitNL]
  | cons c rest ih =>
    rw [splitNL]
    by_cases h : c = '\n'
    · simp [h]
    · rw [if_neg h]
      cases hs : splitNL rest with
      | nil => exact absurd hs ih
      | cons p ps => simp [consHead]

lemma no_nl_of_mem_splitNL : ∀ (t p : List Char), p ∈ splitNL t → '\n' ∉ p := by
  intro t
  induction t with
  | nil =>
    intro p hp
    simp only [splitNL, List.mem_singleton] at hp
    simp [hp]
  | cons c rest ih =>
    intro p hp
    rw [splitNL] at hp
    by_cases h : c = '\n'
    · rw [if_pos h] at hp
      rcases List.mem_cons.mp hp with h1 | h1
      · simp [h1]
      · exact ih p h1
    · rw [if_neg h] at hp
      revert hp
      cases hs : splitNL rest with
      | nil => exact absurd hs (splitNL_ne_nil rest)
      | cons q qs =>
        intro hp
        rw [consHead] at hp
        rcases List.mem_cons.mp hp with h1 | h1
        · subst h1
          intro hmem
          rcases List.mem_cons.mp hmem with h2 | h2
          · exact h h2.symm
          · exact ih q (by simp [hs]) h2
        · exact ih p (by simp [hs, h1])

lemma splitNL_no_nl : ∀ {t : List Char}, '\n' ∉ t → splitNL t = [t] := by
  intro t
  induction t with
  | nil => intro; rfl
  | cons c rest ih =>
    intro h
    have hc : ¬ (c = '\n') := fun hh => h (by simp [hh])
    rw [splitNL, if_neg hc, ih fun hh => h (List.mem_cons_of_mem _ hh)]
    rfl

lemma splitNL_append_sep (rest : List Char) : ∀ (x : List Char), '\n' ∉ x →
    splitNL (x ++ '\n' :: rest) = x :: splitNL rest
  | [], _ => by rw [List.nil_append, splitNL, if_pos rfl]
  | c :: x', h => by
    have hc : ¬ (c = '\n') := fun hh => h (by simp [hh])
    show splitNL (c :: (x' ++ '\n' :: rest)) = (c :: x') :: splitNL rest
    rw [splitNL, if_neg hc,
      splitNL_append_sep rest x' fun hh => h (List.mem_cons_of_mem _ hh)]
    rfl

lemma splitNL_joinSep : ∀ (ls : List (List Char)), ls ≠ [] →
    (∀ l ∈ ls, '\n' ∉ l) → splitNL (joinSep ['\n'] ls) = ls
  | [], h, _ => absurd rfl h
  | [x], _, h => by
    show splitNL x = [x]
    exact splitNL_no_nl (h x (List.mem_cons_self _ _))
  | x :: y :: ys, _, h => by
    rw [joinSep_cons_cons]
    have he : x ++ ['\n'] ++ joinSep ['\n'] (y :: ys)
        = x ++ '\n' :: joinSep ['\n'] (y :: ys) := by simp
    rw [he, splitNL_append_sep _ x (h x (List.mem_cons_self _ _)),
      splitNL_joinSep (y :: ys) (by simp)
        fun l hl => h l (List.mem_cons_of_mem _ hl)]

lemma splitWsAux_mem_chars : ∀ (l acc w : List Char), w ∈ splitWsAux l acc →
    ∀ c ∈ w, c ∈ l ∨ c ∈ acc
  | [], acc, w, hw => by
    rw [splitWsAux] at hw
    by_cases h : acc = []
    · rw [if_pos h] at hw
      simp at hw
    · rw [if_neg h] at hw
      simp only [List.mem_singleton] at hw
      subst hw
      intro c hc
      exact Or.inr (List.mem_reverse.mp hc)
  | c :: rest, acc, w, hw => by
    rw [splitWsAux] at hw
    by_cases hsp : isSpaceB c = true
    · rw [if_pos hsp] at hw
      by_cases hacc : acc = []
      · rw [if_pos hacc] at hw
        intro d hd
        rcases splitWsAux_mem_chars rest [] w hw d hd with h1 | h1
        · exact Or.inl (List.mem_cons_of_mem _ h1)
        · simp at h1
      · rw [if_neg hacc] at hw
        rcases List.mem_cons.mp hw with h1 | h1
        · subst h1
          intro d hd
          exact Or.inr (List.mem_reverse.mp hd)
        · intro d hd
          rcases splitWsAux_mem_chars rest [] w h1 d hd with h2 | h2
          · exact Or.inl (List.mem_cons_of_mem _ h2)
          · simp at h2
    · rw [if_neg hsp] at hw
      intro d hd
      rcases splitWsAux_mem_chars rest (c :: acc) w hw d hd with h1 | h1
      · exact Or.inl (List.mem_cons_of_mem _ h1)
      · rcases List.mem_cons.mp h1 with h2 | h2
        · exact Or.inl (by simp [h2])
        · exact Or.inr h2

lemma mem_chars_pySplitWs {l w : List Char} (hw : w ∈ pySplitWs l) :
    ∀ c ∈ w, c ∈ l := by
  intro c hc
  rcases splitWsAux_mem_chars l [] w hw c hc with h | h
  · exact h
  · simp at h

lemma pySplitWs_cons_space {c : Char} (h : isSpaceB c = true) (rest : List Char) :
    pySplitWs (c :: rest) = pySplitWs rest := by
  rw [pySplitWs, splitWsAux, if_pos h, if_pos rfl]
  rfl

lemma splitWsAux_acc : ∀ (l acc : List Char), acc ≠ [] →
    splitWsAux l acc = (acc.reverse ++ l.takeWhile fun c => !isSpaceB c)
      :: pySplitWs (l.dropWhile fun c => !isSpaceB c)
  | [], acc, h => by
    rw [splitWsAux, if_neg h]
    simp [pySplitWs, splitWsAux]
  | c :: rest, acc, h => by
    rw [splitWsAux]
    by_cases hsp : isSpaceB c = true
    · rw [if_pos hsp, if_neg h, List.takeWhile_cons, List.dropWhile_cons]
      simp only [hsp, Bool.not_true, Bool.false_eq_true, if_false,
        List.append_nil]
      rw [pySplitWs_cons_space hsp]
      rfl
    · rw [if_neg hsp, splitWsAux_acc rest (c :: acc) (by simp),
        List.takeWhile_cons, List.dropWhile_cons]
      have hb : (!isSpaceB c) = true := by simp [hsp]
      rw [if_pos hb, if_pos hb]
      simp [List.append_assoc]

lemma pySplitWs_cons_nonspace {c : Char} (h : ¬ isSpaceB c = true)
    (rest : List Char) :
    pySplitWs (c :: rest)
      = (c :: rest.takeWhile fun x => !isSpaceB x)
        :: pySplitWs (rest.dropWhile fun x => !isSpaceB x) := by
  rw [pySplitWs, splitWsAux, if_neg h, splitWsAux_acc rest [c] (by simp)]
  rfl

/-! ### Lemmas about `pyReplace` and the boldify fold -/

lemma singleton_infix_of_mem {c : Char} {l : List Char} (h : c ∈ l) : [c] <:+: l := by
  obtain ⟨s, t, rfl⟩ := List.append_of_mem h
  exact ⟨s, t, by simp⟩

lemma joinSep_infix_of_mem {sep l : List Char} : ∀ {ls : List (List Char)},
    l ∈ ls → l <:+: joinSep sep ls := by
  intro ls
  induction ls with
  | nil => intro h; simp at h
  | cons x xs ih =>
    intro h
    cases xs with
    | nil =>
      have hx : l = x := by simpa using h
      exact hx ▸ List.infix_refl x
    | cons y ys =>
      rw [joinSep_cons_cons]
      rcases List.mem_cons.mp h with h1 | h1
      · subst h1
        exact ⟨[], sep ++ joinSep sep (y :: ys), by simp⟩
      · exact (ih h1).trans (List.suffix_append _ _).isInfix

lemma mem_joinSep_of_mem {sep l : List Char} {c : Char}
    {ls : List (List Char)} (hl : l ∈ ls) (hc : c ∈ l) :
    c ∈ joinSep sep ls :=
  (joinSep_infix_of_mem hl).sublist.subset hc

lemma pyReplaceF_eq_or_grows (old new : List Char) :
    ∀ (fuel : ℕ) (s : List Char),
      pyReplaceF old new fuel s = s ∨ new <:+: pyReplaceF old new fuel s
  | 0, _ => Or.inl rfl
  | _ + 1, [] => Or.inl rfl
  | fuel + 1, c :: rest => by
    rw [pyReplaceF]
    by_cases h : old.isPrefixOf (c :: rest)
    · rw [if_pos h]
      exact Or.inr (List.prefix_append _ _).isInfix
    · rw [if_neg h]
      rcases pyReplaceF_eq_or_grows old new fuel rest with h1 | h1
      · exact Or.inl (by rw [h1])
      · exact Or.inr (List.infix_cons h1)

lemma mem_pyReplaceF_of_mem {old new : List Char} {a : Char} (ha : a ∉ old) :
    ∀ (fuel : ℕ) (s : List Char), a ∈ s → a ∈ pyReplaceF old new fuel s
  | 0, _, hs => hs
  | _ + 1, [], hs => absurd hs (by simp)
  | fuel + 1, c :: rest, hs => by
    rw [pyReplaceF]
    by_cases h : old.isPrefixOf (c :: rest)
    · rw [if_pos h]
      obtain ⟨t, ht⟩ := List.isPrefixOf_iff_prefix.mp h
      have hdrop : (c :: rest).drop old.length = t := by
        rw [← ht, List.drop_left]
      have hat : a ∈ t := by
        rcases List.mem_append.mp (ht ▸ hs) with h1 | h1
        · exact absurd h1 ha
        · exact h1
      exact List.mem_append_right _ (mem_pyReplaceF_of_mem ha fuel _ (hdrop ▸ hat))
    · rw [if_neg h]
      rcases List.mem_cons.mp hs with h1 | h1
      · exact h1 ▸ List.mem_cons_self _ _
      · exact List.mem_cons_of_mem _ (mem_pyReplaceF_of_mem ha fuel rest h1)

lemma mem_of_mem_pyReplaceF {old new : List Char} {a : Char} (ha : a ∉ new) :
    ∀ (fuel : ℕ) (s : List Char), a ∈ pyReplaceF old new fuel s → a ∈ s
  | 0, _, hs => hs
  | _ + 1, [], hs => hs
  | fuel + 1, c :: rest, hs => by
    rw [pyReplaceF] at hs
    by_cases h : old.isPrefixOf (c :: rest)
    · rw [if_pos h] at hs
      obtain ⟨t, ht⟩ := List.isPrefixOf_iff_prefix.mp h
      have hdrop : (c :: rest).drop old.length = t := by
        rw [← ht, List.drop_left]
      rcases List.mem_append.mp hs with h1 | h1
      · exact absurd h1 ha
      · have hat : a ∈ t :=
          mem_of_mem_pyReplaceF ha fuel _ (hdrop ▸ h1)
        rw [← ht]
        exact List.mem_append_right _ hat
    · rw [if_neg h] at hs
      rcases List.mem_cons.mp hs with h1 | h1
      · exact h1 ▸ List.mem_cons_self _ _
      · exact List.mem_cons_of_mem _ (mem_of_mem_pyReplaceF ha fuel rest h1)

lemma star_mem_boldWrap (w : List Char) : '*' ∈ boldWrap w := by
  simp [boldWrap]

lemma important_no_star :
    ∀ w ∈ importantWords, '*' ∉ w ∧ '*' ∉ pyCapitalize w := by decide

lemma important_no_nl :
    ∀ w ∈ importantWords,
      '\n' ∉ boldWrap w ∧ '\n' ∉ boldWrap (pyCapitalize w) := by decide

lemma boldifyStep_eq_or_star {w : List Char} (_hw : '*' ∉ w)
    (hwc : '*' ∉ pyCapitalize w) (l : List Char) :
    boldifyStep l w = l ∨ '*' ∈ boldifyStep l w := by
  rw [boldifyStep]
  by_cases h : pyLower w <:+: pyLower l
  · rw [if_pos h]
    rcases pyReplaceF_eq_or_grows w (boldWrap w) l.length l with h1 | h1
    · have hinner : pyReplace w (boldWrap w) l = l := h1
      rw [hinner]
      rcases pyReplaceF_eq_or_grows (pyCapitalize w)
          (boldWrap (pyCapitalize w)) l.length l with h2 | h2
      · exact Or.inl h2
      · exact Or.inr (h2.sublist.subset (star_mem_boldWrap _))
    · have hinner : '*' ∈ pyReplace w (boldWrap w) l :=
        h1.sublist.subset (star_mem_boldWrap w)
      exact Or.inr (mem_pyReplaceF_of_mem hwc _ _ hinner)
  · rw [if_neg h]
    exact Or.inl rfl

lemma boldifyStep_star_mem {w : List Char} (hw : '*' ∉ w)
    (hwc : '*' ∉ pyCapitalize w) {l : List Char} (h : '*' ∈ l) :
    '*' ∈ boldifyStep l w := by
  rw [boldifyStep]
  by_cases hc : pyLower w <:+: pyLower l
  · rw [if_pos hc]
    exact mem_pyReplaceF_of_mem hwc _ _ (mem_pyReplaceF_of_mem hw _ _ h)
  · rwa [if_neg hc]

lemma boldFold_star_mem : ∀ (ws : List (List Char)) (l : List Char),
    (∀ w ∈ ws, '*' ∉ w ∧ '*' ∉ pyCapitalize w) → '*' ∈ l →
    '*' ∈ ws.foldl boldifyStep l
  | [], l, _, h => h
  | w :: ws, l, hws, h => by
    rw [List.foldl_cons]
    have hw := hws w (List.mem_cons_self _ _)
    exact boldFold_star_mem ws _ (fun v hv => hws v (List.mem_cons_of_mem _ hv))
      (boldifyStep_star_mem hw.1 hw.2 h)

lemma boldFold_eq_or_star : ∀ (ws : List (List Char)) (l : List Char),
    (∀ w ∈ ws, '*' ∉ w ∧ '*' ∉ pyCapitalize w) →
    ws.foldl boldifyStep l = l ∨ '*' ∈ ws.foldl boldifyStep l
  | [], _, _ => Or.inl rfl
  | w :: ws, l, hws => by
    rw [List.foldl_cons]
    have hw := hws w (List.mem_cons_self _ _)
    have hws' : ∀ v ∈ ws, '*' ∉ v ∧ '*' ∉ pyCapitalize v :=
      fun v hv => hws v (List.mem_cons_of_mem _ hv)
    rcases boldifyStep_eq_or_star hw.1 hw.2 l with h1 | h1
    · rw [h1]
      exact boldFold_eq_or_star ws l hws'
    · exact Or.inr (boldFold_star_mem ws _ hws' h1)

lemma mem_boldifyStep_of_not {a : Char} {w : List Char}
    (h1 : a ∉ boldWrap w) (h2 : a ∉ boldWrap (pyCapitalize w))
    {l : List Char} (h : a ∈ boldifyStep l w) : a ∈ l := by
  rw [boldifyStep] at h
  by_cases hc : pyLower w <:+: pyLower l
  · rw [if_pos hc] at h
    exact mem_of_mem_pyReplaceF h1 _ _ (mem_of_mem_pyReplaceF h2 _ _ h)
  · rwa [if_neg hc] at h

lemma mem_boldFold_of_not {a : Char} : ∀ (ws : List (List Char)) (l : List Char),
    (∀ w ∈ ws, a ∉ boldWrap w ∧ a ∉ boldWrap (pyCapitalize w)) →
    a ∈ ws.foldl boldifyStep l → a ∈ l
  | [], _, _, h => h
  | w :: ws, l, hws, h => by
    rw [List.foldl_cons] at h
    have hw := hws w (List.mem_cons_self _ _)
    exact mem_boldifyStep_of_not hw.1 hw.2
      (mem_boldFold_of_not ws _ (fun v hv => hws v (List.mem_cons_of_mem _ hv)) h)

/-! ### Infix decomposition and the lowered-word run lemma -/

lemma infix_append_split {l a b : List Char} (h : l <:+: a ++ b) :
    l <:+: a ∨ l <:+: b ∨
    ∃ l₁ l₂, l = l₁ ++ l₂ ∧ l₁ ≠ [] ∧ l₂ ≠ [] ∧ l₁ <:+ a ∧ l₂ <+: b := by
  obtain ⟨s, t, hst⟩ := h
  have hst' : s ++ (l ++ t) = a ++ b := by rw [← hst]; simp [List.append_assoc]
  rcases List.append_eq_append_iff.mp hst' with ⟨a', ha, hlt⟩ | ⟨s', _, hb⟩
  · rcases List.append_eq_append_iff.mp hlt with ⟨x, hax, _⟩ | ⟨y, hl, hbyt⟩
    · left
      rw [ha, hax]
      exact ⟨s, x, by simp [List.append_assoc]⟩
    · by_cases ha' : a' = []
      · right; left
        subst ha'
        rw [List.nil_append] at hl
        rw [hbyt, hl]
        exact (List.prefix_append y t).isInfix
      · by_cases hy : y = []
        · left
          subst hy
          rw [List.append_nil] at hl
          rw [ha, hl]
          exact ⟨s, [], by simp⟩
        · right; right
          exact ⟨a', y, hl, ha', hy, ⟨s, ha.symm⟩, ⟨t, hbyt.symm⟩⟩
  · right; left
    rw [hb]
    exact ⟨s', t, by simp [List.append_assoc]⟩

/-- Whitespace is fixed by `Char.toLower`. -/
lemma toLower_space {c : Char} (h : isSpaceB c = true) : c.toLower = c := by
  simp only [isSpaceB, Bool.or_eq_true, decide_eq_true_eq] at h
  rcases h with ((((h | h) | h) | h) | h) | h <;> subst h <;> decide

lemma pyLower_cons (c : Char) (l : List Char) :
    pyLower (c :: l) = c.toLower :: pyLower l := rfl

/-- A nonempty whitespace-free substring of the lowered line lies inside
the lowering of one of the line's whitespace-split words. -/
lemma infix_lower_word_aux {e : List Char} (he : e ≠ [])
    (hsp : ∀ c ∈ e, isSpaceB c = false) :
    ∀ (n : ℕ) (l : List Char), l.length ≤ n → e <:+: pyLower l →
      ∃ w ∈ pySplitWs l, e <:+: pyLower w := by
  intro n
  induction n with
  | zero =>
    intro l hl hinf
    rw [List.length_eq_zero.mp (Nat.le_zero.mp hl)] at hinf
    exact absurd (List.infix_nil.mp hinf) he
  | succ n ih =>
    intro l hl hinf
    cases l with
    | nil => exact absurd (List.infix_nil.mp hinf) he
    | cons c rest =>
      by_cases hc : isSpaceB c = true
      · rw [pySplitWs_cons_space hc]
        refine ih rest (by simpa using hl) ?_
        rw [pyLower_cons] at hinf
        rcases List.infix_cons_iff.mp hinf with h1 | h1
        · cases e with
          | nil => exact absurd rfl he
          | cons a e' =>
            have h2 := (List.cons_prefix_cons.mp h1).1
            rw [toLower_space hc] at h2
            have := hsp a (List.mem_cons_self _ _)
            rw [h2, hc] at this
            exact absurd this (by simp)
        · exact h1
      · rw [pySplitWs_cons_nonspace hc]
        have hrest := List.takeWhile_append_dropWhile
          (fun x => !isSpaceB x) rest
        have hsplit : c :: rest
            = (c :: rest.takeWhile fun x => !isSpaceB x)
              ++ rest.dropWhile fun x => !isSpaceB x := by
          rw [List.cons_append, hrest]
        have hlow : pyLower (c :: rest)
            = pyLower (c :: rest.takeWhile fun x => !isSpaceB x)
              ++ pyLower (rest.dropWhile fun x => !isSpaceB x) := by
          rw [hsplit]
          exact List.map_append _ _ _
        rw [hlow] at hinf
        rcases infix_append_split hinf with h1 | h1 | h1
        · exact ⟨_, List.mem_cons_self _ _, h1⟩
        · have hdlen : (rest.dropWhile fun x => !isSpaceB x).length ≤ n := by
            have h2 := (@List.dropWhile_suffix Char rest
              fun x => !isSpaceB x).length_le
            have h3 : rest.length ≤ n := by simpa using hl
            omega
          obtain ⟨w, hw, hwe⟩ := ih _ hdlen h1
          exact ⟨w, List.mem_cons_of_mem _ hw, hwe⟩
        · obtain ⟨l₁, l₂, hel, _, hn2, _, hpre⟩ := h1
          cases hd : rest.dropWhile fun x => !isSpaceB x with
          | nil =>
            rw [hd] at hpre
            have h5 : l₂ = [] := List.prefix_nil.mp (by simpa [pyLower] using hpre)
            exact absurd h5 hn2
          | cons a d' =>
            have hsa : isSpaceB a = true := by
              have h4 := head?_dropWhile_not (fun x => !isSpaceB x) rest
              rw [hd] at h4
              simpa using h4
            cases l₂ with
            | nil => exact absurd rfl hn2
            | cons b l₂' =>
              rw [hd, pyLower_cons] at hpre
              have hba := (List.cons_prefix_cons.mp hpre).1
              rw [toLower_space hsa] at hba
              have hbe : b ∈ e := by
                rw [hel]
                exact List.mem_append_right _ (List.mem_cons_self _ _)
              have := hsp b hbe
              rw [hba, hsa] at this
              exact absurd this (by simp)

lemma infix_lower_word {e l : List Char} (he : e ≠ [])
    (hsp : ∀ c ∈ e, isSpaceB c = false) (h : e <:+: pyLower l) :
    ∃ w ∈ pySplitWs l, e <:+: pyLower w :=
  infix_lower_word_aux he hsp l.length l le_rfl h

/-! ### The per-line enhancement introduces no newline, and indicator-free
outputs are fixed points -/

lemma mem_wrapTech_of_ne {a : Char} (ha : a ≠ '`') {w : List Char}
    (h : a ∈ wrapTech w) : a ∈ w := by
  rw [wrapTech] at h
  by_cases hc : (pyIsUpper w = true ∧ w.length > 2)
      ∨ (∃ e ∈ fileExts, e <:+: pyLower w)
  · rw [if_pos hc] at h
    rcases List.mem_cons.mp h with h1 | h1
    · exact absurd h1 ha
    · rcases List.mem_append.mp h1 with h2 | h2
      · exact h2
      · exact absurd (by simpa using h2) ha
  · rwa [if_neg hc] at h

lemma no_nl_processStripped {l₁ : List Char} (h : '\n' ∉ l₁) :
    '\n' ∉ processStripped l₁ := by
  rw [processStripped]
  by_cases h1 : l₁ = []
  · rw [if_pos h1]
    simp
  · rw [if_neg h1]
    by_cases h2 : headingCond l₁
    · rw [if_pos h2]
      intro hm
      rcases List.mem_append.mp hm with hx | hx
      · exact absurd hx (by decide)
      · exact h hx
    · rw [if_neg h2]
      by_cases h3 : listCond l₁
      · rw [if_pos h3]
        exact h
      · rw [if_neg h3]
        by_cases h4 : techCond l₁
        · rw [if_pos h4]
          intro hm
          rcases mem_joinSep hm with ⟨x, hx, hmx⟩ | hx
          · obtain ⟨w, hw, rfl⟩ := List.mem_map.mp hx
            exact h (mem_chars_pySplitWs hw _ (mem_wrapTech_of_ne (by decide) hmx))
          · exact absurd hx (by decide)
        · rw [if_neg h4]
          intro hm
          exact h (mem_boldFold_of_not _ _ important_no_nl hm)

lemma no_nl_processLine {l : List Char} (h : '\n' ∉ l) :
    '\n' ∉ processLine l :=
  no_nl_processStripped fun hm => h ((pyStrip_infix_orig l).sublist.subset hm)

lemma hasMarkdown_false_chars {u : List Char} (h : hasMarkdownB u = false) :
    '*' ∉ u ∧ '#' ∉ u ∧ '`' ∉ u := by
  rw [hasMarkdownB, List.any_eq_false] at h
  refine ⟨fun hm => ?_, fun hm => ?_, fun hm => ?_⟩
  · exact absurd (singleton_infix_of_mem hm) (by simpa using h ['*'] (by decide))
  · exact absurd (singleton_infix_of_mem hm) (by simpa using h ['#'] (by decide))
  · exact absurd (singleton_infix_of_mem hm) (by simpa using h ['`'] (by decide))

lemma fileExts_nonempty_nospace :
    ∀ e ∈ fileExts, e ≠ [] ∧ ∀ c ∈ e, isSpaceB c = false := by decide

lemma processLine_fix (l0 : List Char)
    (hstar : '*' ∉ processLine l0) (hhash : '#' ∉ processLine l0)
    (htick : '`' ∉ processLine l0) :
    processLine (processLine l0) = processLine l0 := by
  have hidem := pyStrip_idem l0
  simp only [processLine] at hstar hhash htick ⊢
  set l₁ := pyStrip l0 with hl₁
  by_cases h1 : l₁ = []
  · have ho : processStripped l₁ = [] := by rw [processStripped, if_pos h1]
    have hnil : processStripped ([] : List Char) = [] := by
      rw [processStripped, if_pos rfl]
    have hsnil : pyStrip ([] : List Char) = [] := rfl
    rw [ho, hsnil, hnil]
  · by_cases h2 : headingCond l₁
    · have ho : processStripped l₁ = "### ".toList ++ l₁ := by
        rw [processStripped, if_neg h1, if_pos h2]
      exact absurd (ho.symm ▸ List.mem_append_left l₁ (by decide)) hhash
    · by_cases h3 : listCond l₁
      · have ho : processStripped l₁ = l₁ := by
          rw [processStripped, if_neg h1, if_neg h2, if_pos h3]
        rw [ho, hidem, ho]
      · by_cases h4 : techCond l₁
        · have ho : processStripped l₁
              = joinSep [' '] ((pySplitWs l₁).map wrapTech) := by
            rw [processStripped, if_neg h1, if_neg h2, if_neg h3, if_pos h4]
          have hw : ∃ w ∈ pySplitWs l₁, '`' ∈ wrapTech w := by
            rcases h4 with ⟨w, hw, hcond⟩ | ⟨e, he, hinf⟩
            · refine ⟨w, hw, ?_⟩
              rw [wrapTech, if_pos (Or.inl hcond)]
              exact List.mem_cons_self _ _
            · obtain ⟨hne, hnsp⟩ := fileExts_nonempty_nospace e he
              obtain ⟨w, hw, hwe⟩ := infix_lower_word hne hnsp hinf
              refine ⟨w, hw, ?_⟩
              rw [wrapTech, if_pos (Or.inr ⟨e, he, hwe⟩)]
              exact List.mem_cons_self _ _
          obtain ⟨w, hw, htw⟩ := hw
          have hmem : '`' ∈ processStripped l₁ := by
            rw [ho]
            exact mem_joinSep_of_mem (List.mem_map_of_mem wrapTech hw) htw
          exact absurd hmem htick
        · have ho : processStripped l₁
              = importantWords.foldl boldifyStep l₁ := by
            rw [processStripped, if_neg h1, if_neg h2, if_neg h3, if_neg h4]
          rcases boldFold_eq_or_star importantWords l₁ important_no_star
            with hf | hf
          · have ho' : processStripped l₁ = l₁ := ho.trans hf
            rw [ho', hidem, ho']
          · exact absurd (ho.symm ▸ hf) hstar

lemma map_fix {α : Type} (f : α → α) : ∀ (l : List α),
    (∀ a ∈ l, f a = a) → l.map f = l
  | [], _ => rfl
  | a :: l, h => by
    rw [List.map_cons, h a (List.mem_cons_self _ _),
      map_fix f l fun b hb => h b (List.mem_cons_of_mem _ hb)]

/-- C7: the markdown enhancer is idempotent — for every input text `x`,
`enhance_text_with_markdown (enhance_text_with_markdown x) =
enhance_text_with_markdown x`.  Either the first pass introduces a markdown
indicator (so the second pass returns its input unchanged), or the first
pass's output is indicator-free, in which case every enhanced line is a
fixed point of the per-line enhancement. -/
theorem c7_enhance_idempotent (x : List Char) :
    enhance_text_with_markdown (enhance_text_with_markdown x)
      = enhance_text_with_markdown x := by
  have henil : enhance_text_with_markdown [] = [] := by
    rw [enhance_text_with_markdown, if_pos rfl]
  by_cases hx : x = []
  · subst hx
    rw [henil, henil]
  · by_cases hmd : hasMarkdownB x = true
    · have hex : enhance_text_with_markdown x = x := by
        rw [enhance_text_with_markdown, if_neg hx, if_pos hmd]
      rw [hex]
      exact hex
    · have hex : enhance_text_with_markdown x
          = joinSep ['\n'] ((splitNL x).map processLine) := by
        rw [enhance_text_with_markdown, if_neg hx, if_neg hmd]
      rw [hex]
      set ls := (splitNL x).map processLine with hls
      set u := joinSep ['\n'] ls with hu
      by_cases hune : u = []
      · rw [hune, henil]
      · by_cases hmu : hasMarkdownB u = true
        · rw [enhance_text_with_markdown, if_neg hune, if_pos hmu]
        · have hmu' : hasMarkdownB u = false := by simpa using hmu
          obtain ⟨hstar, hhash, htick⟩ := hasMarkdown_false_chars hmu'
          have hlines_nonl : ∀ o ∈ ls, ('\n' : Char) ∉ o := by
            intro o ho
            rw [hls] at ho
            obtain ⟨l, hl, rfl⟩ := List.mem_map.mp ho
            exact no_nl_processLine (no_nl_of_mem_splitNL x l hl)
          have hlsne : ls ≠ [] := by
            rw [hls]
            intro hmap
            exact splitNL_ne_nil x (List.map_eq_nil_iff.mp hmap)
          have hsplit : splitNL u = ls := by
            rw [hu]
            exact splitNL_joinSep ls hlsne hlines_nonl
          rw [enhance_text_with_markdown, if_neg hune, if_neg hmu, hsplit]
          have hfix : ls.map processLine = ls := by
            apply map_fix
            intro o ho
            obtain ⟨l, hl, rfl⟩ := List.mem_map.mp (hls ▸ ho)
            refine processLine_fix l (fun hm => hstar ?_)
              (fun hm => hhash ?_) (fun hm => htick ?_)
            · exact hu.symm ▸ mem_joinSep_of_mem ho hm
            · exact hu.symm ▸ mem_joinSep_of_mem ho hm
            · exact hu.symm ▸ mem_joinSep_of_mem ho hm
          rw [hfix]
